import Mathlib

/-!
# Buffered directory stream (`fs/dirstream_unix.go`, `fs/dirstream_linux.go`)

A shallow embedding of `loopbackDirStream`: the stream state, the operating
system calls it issues (`getdents`, `close`, `open`) and its four methods
`NewLoopbackDirStream`, `Close`, `HasNext`, `Next` together with the private
`load`.

Modelling decisions.

* A byte is a `Fin 256`.  Fixed-width integers are natural numbers or integers
  with the wrap-around of Go conversions written out (`% 2 ^ 32`, `% 2 ^ 64`).
* A Go slice is the pair of the elements it exposes (`elems`, `len` of them)
  and the rest of its backing array behind them (`spare`), so that
  `cap = len + spare`.  Slice expressions are checked against `cap`, index
  expressions against `len`, exactly as the Go runtime does, and a failed
  check is the outcome `Run.panic`.
* `(*dirent)(unsafe.Pointer(&ds.todo[0]))` is a pointer into the backing
  array.  Field reads through it are not bounds checked: they see `elems`,
  then `spare`, then whatever follows the array (`Env.heap`).
* The mutex is not modelled: every method body runs as one atomic step.
* The operating system is a state `OS` carrying the answers of the coming
  `getdents` calls and a log of the calls issued.
-/

namespace DirStream

/-! ## The program -/

/-- One octet. -/
abbrev Byte := Fin 256

/-- Go value of type `error`: `none` is `nil`, `some c` an error with raw
platform code `c`. -/
abbrev GoError := Option Nat

/-- What the code takes from outside this file: the error translator
`ToErrno`, the byte order of the machine, the bytes that lie behind a backing
array, and the answer of `syscall.Open` for a path. -/
structure Env where
  ToErrno : GoError → Nat
  bigEndian : Bool
  heap : Nat → Byte
  sysOpen : String → Int × GoError

/-- Portable entry handed to the caller, the fields of `fuse.DirEntry` that
`Next` fills in. -/
structure DirEntry where
  Ino : Nat
  Mode : Nat
  Name : List Byte
  Off : Nat
deriving DecidableEq, Repr

/-- Zero value `fuse.DirEntry{}`. -/
def DirEntry.zero : DirEntry := ⟨0, 0, [], 0⟩

/-- Go slice of bytes: the visible elements and the remainder of the backing
array behind them. -/
structure Slice where
  elems : List Byte
  spare : List Byte
deriving DecidableEq, Repr

/-- Builtin `len`. -/
def Slice.len (s : Slice) : Nat := s.elems.length

/-- Builtin `cap`. -/
def Slice.cap (s : Slice) : Nat := s.elems.length + s.spare.length

/-- Slice expression `s[lo:hi]`; `none` when the runtime check
`lo ≤ hi ≤ cap(s)` fails. -/
def Slice.slice (s : Slice) (lo hi : Nat) : Option Slice :=
  if lo ≤ hi ∧ hi ≤ s.cap then
    some ⟨((s.elems ++ s.spare).take hi).drop lo, (s.elems ++ s.spare).drop hi⟩
  else none

/-- Slice expression `s[lo:]`, whose upper bound is `len(s)`. -/
def Slice.sliceFrom (s : Slice) (lo : Nat) : Option Slice := s.slice lo s.len

/-- Slice expression `s[:hi]`. -/
def Slice.sliceTo (s : Slice) (hi : Nat) : Option Slice := s.slice 0 hi

/-- Unchecked read of the byte `i` places behind the first element. -/
def Slice.peek (E : Env) (s : Slice) (i : Nat) : Byte :=
  (s.elems ++ s.spare).getD i (E.heap (i - s.cap))

/-- Unchecked read of `w` consecutive bytes starting `o` places behind the
first element. -/
def Slice.field (E : Env) (s : Slice) (o w : Nat) : List Byte :=
  (List.range w).map (fun k => s.peek E (o + k))

/-- Value of a byte string read least significant byte first. -/
def leNat : List Byte → Nat
  | [] => 0
  | b :: bs => b.val + 256 * leNat bs

/-- Unsigned integer stored in a byte string in the machine's byte order. -/
def readUint (E : Env) (bs : List Byte) : Nat :=
  if E.bigEndian then leNat bs.reverse else leNat bs

/-- Two's complement reading of a 64-bit pattern (Go `int64`). -/
def toInt64 (u : Nat) : Int := if u < 2 ^ 63 then (u : Int) else (u : Int) - 2 ^ 64

/-- Conversion `uint64(x)` of a Go `int64`. -/
def uint64OfInt (x : Int) : Nat := (x % 2 ^ 64).toNat

/-- Field `Ino uint64` of `dirent`, at offset 0. -/
def deIno (E : Env) (de : Slice) : Nat := readUint E (de.field E 0 8)

/-- Field `Off int64` of `dirent`, at offset 8. -/
def deOff (E : Env) (de : Slice) : Int := toInt64 (readUint E (de.field E 8 8))

/-- Field `Reclen uint16` of `dirent`, at offset 16. -/
def deReclen (E : Env) (de : Slice) : Nat := readUint E (de.field E 16 2)

/-- Field `Type uint8` of `dirent`, at offset 18. -/
def deType (E : Env) (de : Slice) : Nat := (de.peek E 18).val

/-- Constant `unsafe.Offsetof(dirent{}.Name)`: 8 + 8 + 2 + 1. -/
def nameOffset : Nat := 19

/-- Library function `bytes.IndexByte`: position of the first `c`, or `-1`. -/
def IndexByte : List Byte → Byte → Int
  | [], _ => -1
  | b :: bs, c => if b = c then 0 else
      let r := IndexByte bs c
      if r < 0 then -1 else r + 1

/-- Mutable and immutable members of `loopbackDirStream` (the mutex apart). -/
structure loopbackDirStream where
  buf : List Byte
  todo : Slice
  todoErrno : Nat
  fd : Int
deriving DecidableEq, Repr

/-- Answer of one `getdents` call: the returned count, the returned error and
the bytes the kernel stored at the start of the buffer. -/
structure ReadResult where
  n : Int
  err : GoError
  mem : List Byte
deriving DecidableEq, Repr

/-- Operating system seen from the stream: answers of the coming `getdents`
calls, and the log of `getdents` calls (descriptor, buffer length) and of
`close` calls issued so far. -/
structure OS where
  script : List ReadResult
  reads : List (Int × Nat)
  closes : List Int
deriving DecidableEq, Repr

/-- Buffer contents after the kernel stored `data` at its start; the kernel is
told the buffer length and never writes behind it. -/
def overwrite (buf data : List Byte) : List Byte :=
  data.take buf.length ++ buf.drop data.length

/-- System call wrapper `unix.Getdents(fd, buf)`: count, error, buffer
contents afterwards, operating system afterwards.  The count never exceeds
`len(buf)` (contract of the system call); once the script is used up the
directory is at its end and the call answers `0, nil`.

The answers are handed out in the order of the calls, whatever the
descriptor: which answer a descriptor gets is not fixed by this definition
but left to the script.  A statement about one run that holds for every
script therefore also holds for the script in which a read on the sentinel
-1 is answered `-1, EBADF`, as the kernel does.  Two runs that read on
different descriptors are not to be compared under one script. -/
def Getdents (os : OS) (fd : Int) (buf : List Byte) : Int × GoError × List Byte × OS :=
  let r := os.script.headD ⟨0, none, []⟩
  (min r.n buf.length, r.err, overwrite buf r.mem,
    ⟨os.script.tail, os.reads ++ [(fd, buf.length)], os.closes⟩)

/-- Outcome of running a method: a value with the operating system
afterwards, or a Go runtime panic. -/
inductive Run (α : Type) where
  | ok (val : α) (os : OS)
  | panic
deriving DecidableEq, Repr

/-- Method `load`: refill `todo` from the descriptor when it is empty. -/
def load (E : Env) (ds : loopbackDirStream) (os : OS) : Run loopbackDirStream :=
  if ds.todo.len > 0 then .ok ds os
  else
    match Getdents os ds.fd ds.buf with
    | (n, err, buf1, os1) =>
      let n := if n < 0 then 0 else n
      match Slice.sliceTo ⟨buf1, []⟩ n.toNat with
      | none => .panic
      | some todo1 => .ok ⟨buf1, todo1, E.ToErrno err, ds.fd⟩ os1

/-- Method `HasNext`. -/
def HasNext (ds : loopbackDirStream) (os : OS) : Run (Bool × loopbackDirStream) :=
  .ok (decide (ds.todo.len > 0) || decide (ds.todoErrno ≠ 0), ds) os

/-- Method `Next`: the entry, the errno and the stream afterwards. -/
def Next (E : Env) (ds : loopbackDirStream) (os : OS) :
    Run (DirEntry × Nat × loopbackDirStream) :=
  if ds.todoErrno ≠ 0 then .ok (DirEntry.zero, ds.todoErrno, ds) os
  else if ds.todo.len = 0 then .panic
  else
    let de := ds.todo
    match ds.todo.slice nameOffset (deReclen E de) with
    | none => .panic
    | some nameBytes =>
      match ds.todo.sliceFrom (deReclen E de) with
      | none => .panic
      | some todo1 =>
        let l := IndexByte nameBytes.elems 0
        match (if l ≥ 0 then nameBytes.sliceTo l.toNat else some nameBytes) with
        | none => .panic
        | some nameBytes =>
          let result : DirEntry :=
            ⟨deIno E de, (deType E de <<< 12) % 2 ^ 32, nameBytes.elems,
              uint64OfInt (deOff E de)⟩
          match load E ⟨ds.buf, todo1, ds.todoErrno, ds.fd⟩ os with
          | .panic => .panic
          | .ok ds1 os1 => .ok (result, 0, ds1) os1

/-- Method `Close`. -/
def Close (ds : loopbackDirStream) (os : OS) : Run loopbackDirStream :=
  if ds.fd ≠ -1 then
    .ok ⟨ds.buf, ds.todo, ds.todoErrno, -1⟩ ⟨os.script, os.reads, os.closes ++ [ds.fd]⟩
  else .ok ds os

/-- Constructor `NewLoopbackDirStream`: the stream (or `nil`) and the errno. -/
def NewLoopbackDirStream (E : Env) (name : String) (os : OS) :
    Run (Option loopbackDirStream × Nat) :=
  match E.sysOpen name with
  | (fd, err) =>
    if err ≠ none then .ok (none, E.ToErrno err) os
    else
      match load E ⟨List.replicate 4096 0, ⟨[], []⟩, 0, fd⟩ os with
      | .panic => .panic
      | .ok ds os1 => .ok (some ds, 0) os1

/-! ## Reading the pending region as records -/

/-- Length field of the record at the start of a byte region: the 16-bit
field at offset 16. -/
def recordLength (E : Env) (p : List Byte) : Nat := readUint E ((p.drop 16).take 2)

/-- The region starts with a well-formed record: its length field is at least
the header size and at most the length of the region. -/
def WellFormedFirst (E : Env) (p : List Byte) : Prop :=
  nameOffset ≤ recordLength E p ∧ recordLength E p ≤ p.length

instance (E : Env) (p : List Byte) : Decidable (WellFormedFirst E p) := by
  unfold WellFormedFirst; infer_instance

/-- Name region of the record at the start of a byte region: the bytes in
`[19, recordLength)`. -/
def nameRegion (E : Env) (p : List Byte) : List Byte :=
  (p.take (recordLength E p)).drop nameOffset

/-- Entry described by the record at the start of a byte region, field by
field as the record format states it: inode at offset 0, cursor offset at
offset 8 (as a 64-bit pattern), type at offset 18, name up to the first zero
byte of the name region. -/
def decodeRecord (E : Env) (p : List Byte) : DirEntry :=
  ⟨readUint E (p.take 8), (p.getD 18 0).val * 4096,
    (nameRegion E p).takeWhile (fun b => b ≠ 0), readUint E ((p.drop 8).take 8)⟩

/-- Stream left by a refill that asked the kernel: the buffer as the kernel
left it, its first `max n 0` bytes pending, the translated error stored. -/
def refilled (E : Env) (ds : loopbackDirStream) (os : OS) : loopbackDirStream :=
  ⟨(Getdents os ds.fd ds.buf).2.2.1,
    ⟨(Getdents os ds.fd ds.buf).2.2.1.take (max (Getdents os ds.fd ds.buf).1 0).toNat,
      (Getdents os ds.fd ds.buf).2.2.1.drop (max (Getdents os ds.fd ds.buf).1 0).toNat⟩,
    E.ToErrno (Getdents os ds.fd ds.buf).2.1, ds.fd⟩

/-- Stream after the cursor moved past the first record, before the refill
check. -/
def advanced (E : Env) (ds : loopbackDirStream) : loopbackDirStream :=
  ⟨ds.buf, ⟨ds.todo.elems.drop (recordLength E ds.todo.elems), ds.todo.spare⟩,
    ds.todoErrno, ds.fd⟩

/-- A whole record: at least a header long, and its length field is its
length. -/
def WellFormedRecord (E : Env) (r : List Byte) : Prop :=
  nameOffset ≤ r.length ∧ recordLength E r = r.length

instance (E : Env) (r : List Byte) : Decidable (WellFormedRecord E r) := by
  unfold WellFormedRecord; infer_instance

/-- Answer of a `getdents` call that delivers the records of one chunk. -/
def chunkResult (c : List (List Byte)) : ReadResult :=
  ⟨c.flatten.length, none, c.flatten⟩

/-- Entries of a byte string read record by record, each record ending where
its length field says. -/
def decodeAll (E : Env) : Nat → List Byte → List DirEntry
  | 0, _ => []
  | fuel + 1, p =>
    if p = [] then []
    else if WellFormedFirst E p then
      decodeRecord E p :: decodeAll E fuel (p.drop (recordLength E p))
    else []

/-- Entries of a byte string; one step per byte is enough. -/
def decodeStream (E : Env) (p : List Byte) : List DirEntry := decodeAll E p.length p

/-- The byte string is a concatenation of zero or more whole well-formed
records. -/
def Records (E : Env) (p : List Byte) : Prop :=
  ∃ rs : List (List Byte), (∀ r ∈ rs, WellFormedRecord E r) ∧ p = rs.flatten

/-- Answer of a `getdents` call into a buffer of `cap` bytes that leaves whole
records pending: it delivers nothing (count at most 0), or its count is the
number of bytes stored, they fit the buffer and they are a concatenation of
whole well-formed records. -/
def GoodRead (E : Env) (cap : Nat) (r : ReadResult) : Prop :=
  r.n ≤ 0 ∨ (r.n = r.mem.length ∧ r.mem.length ≤ cap ∧ Records E r.mem)

/-- Invariant "the pending region begins at a record boundary": the pending
region is a concatenation of whole records and so is every coming answer of
the operating system. -/
def AtBoundary (E : Env) (ds : loopbackDirStream) (os : OS) : Prop :=
  Records E ds.todo.elems ∧ ∀ r ∈ os.script, GoodRead E ds.buf.length r

/-! ## Callers -/

/-- Run `Next` `n` times in a row; after each call ask `HasNext`.  The result
lists, call by call, the entry, the errno and the answer of `HasNext`. -/
def NextTimes (E : Env) : Nat → loopbackDirStream → OS →
    Run (List (DirEntry × Nat × Bool) × loopbackDirStream)
  | 0, ds, os => .ok ([], ds) os
  | n + 1, ds, os =>
    match Next E ds os with
    | .panic => .panic
    | .ok (e, errno, ds1) os1 =>
      match HasNext ds1 os1 with
      | .panic => .panic
      | .ok (b, ds2) os2 =>
        match NextTimes E n ds2 os2 with
        | .panic => .panic
        | .ok (l, ds3) os3 => .ok ((e, errno, b) :: l, ds3) os3

/-- Result of the caller's loop. -/
inductive Drained where
  | done (entries : List DirEntry)
  | failed (entries : List DirEntry) (errno : Nat)
  | panic
  | outOfFuel
deriving DecidableEq, Repr

/-- Caller's loop `if HasNext then Next`, repeated until `HasNext` answers
false, collecting the entries; it stops at the first non-zero errno. -/
def drain (E : Env) : Nat → loopbackDirStream → OS → Drained
  | 0, _, _ => .outOfFuel
  | fuel + 1, ds, os =>
    match HasNext ds os with
    | .panic => .panic
    | .ok (false, _) _ => .done []
    | .ok (true, ds1) os1 =>
      match Next E ds1 os1 with
      | .panic => .panic
      | .ok (e, errno, ds2) os2 =>
        if errno ≠ 0 then .failed [] errno
        else
          match drain E fuel ds2 os2 with
          | .done es => .done (e :: es)
          | .failed es c => .failed (e :: es) c
          | .panic => .panic
          | .outOfFuel => .outOfFuel

/-- Open the directory, then run the caller's loop. -/
def readDir (E : Env) (name : String) (fuel : Nat) (os : OS) : Drained :=
  match NewLoopbackDirStream E name os with
  | .panic => .panic
  | .ok (none, errno) _ => .failed [] errno
  | .ok (some ds, _) os1 => drain E fuel ds os1

/-- The three public methods of an open stream. -/
inductive Op where
  | hasNext
  | next
  | close
deriving DecidableEq, Repr

/-- One method call, its result dropped. -/
def step (E : Env) : Op → loopbackDirStream → OS → Run loopbackDirStream
  | .hasNext, ds, os =>
    match HasNext ds os with
    | .panic => .panic
    | .ok (_, ds1) os1 => .ok ds1 os1
  | .next, ds, os =>
    match Next E ds os with
    | .panic => .panic
    | .ok (_, _, ds1) os1 => .ok ds1 os1
  | .close, ds, os => Close ds os

/-- A sequence of method calls, one after the other. -/
def runOps (E : Env) : List Op → loopbackDirStream → OS → Run loopbackDirStream
  | [], ds, os => .ok ds os
  | op :: ops, ds, os =>
    match step E op ds os with
    | .panic => .panic
    | .ok ds1 os1 => runOps E ops ds1 os1

/-- Call `Close` `n` times in a row. -/
def CloseTimes : Nat → loopbackDirStream → OS → Run loopbackDirStream
  | 0, ds, os => .ok ds os
  | n + 1, ds, os =>
    match Close ds os with
    | .panic => .panic
    | .ok ds1 os1 => CloseTimes n ds1 os1

/-- Call `HasNext` `n` times in a row, collecting the answers. -/
def HasNextTimes : Nat → loopbackDirStream → OS → Run (List Bool × loopbackDirStream)
  | 0, ds, os => .ok ([], ds) os
  | n + 1, ds, os =>
    match HasNext ds os with
    | .panic => .panic
    | .ok (b, ds1) os1 =>
      match HasNextTimes n ds1 os1 with
      | .panic => .panic
      | .ok (l, ds2) os2 => .ok (b :: l, ds2) os2

/-! ## Sample data -/

/-- A little-endian machine on which `ToErrno` maps `nil` to 0 and an error
to its code, and every path opens as descriptor 3. -/
def sampleEnv : Env := ⟨fun e => e.getD 0, false, fun _ => 0, fun _ => (3, none)⟩

/-- Record for the name "a": inode 1, offset 2, length 24, type 8. -/
def recA : List Byte :=
  [1, 0, 0, 0, 0, 0, 0, 0, 2, 0, 0, 0, 0, 0, 0, 0, 24, 0, 8, 97, 0, 0, 0, 0]

/-- Record for the name "bcdef" without terminator: inode 258, offset -1,
length 24, type 4. -/
def recB : List Byte :=
  [2, 1, 0, 0, 0, 0, 0, 0, 255, 255, 255, 255, 255, 255, 255, 255, 24, 0, 4,
    98, 99, 100, 101, 102]

/-- Record of 24 bytes whose length field says 30. -/
def recLong : List Byte :=
  [1, 0, 0, 0, 0, 0, 0, 0, 2, 0, 0, 0, 0, 0, 0, 0, 30, 0, 8, 97, 0, 0, 0, 0]

/-- Operating system whose next `getdents` fails with code 5. -/
def sampleOS : OS := ⟨[⟨-1, some 5, []⟩], [], []⟩

/-- Stream on descriptor 3 with the given pending bytes (no spare capacity
behind them), a 48-byte buffer and the given deferred fault. -/
def sampleStream (pending : List Byte) (errno : Nat) : loopbackDirStream :=
  ⟨recA ++ recB, ⟨pending, []⟩, errno, 3⟩

/-- Operating system that delivers "a", then "bcdef", then the end of the
directory. -/
def twoChunkOS : OS := ⟨[chunkResult [recA], chunkResult [recB], ⟨0, none, []⟩], [], []⟩

/-- Environment like `sampleEnv` in which only the path "d" opens (as
descriptor 3); every other path fails with code 2. -/
def onlyDirEnv : Env :=
  ⟨fun e => e.getD 0, false, fun _ => 0, fun p => if p = "d" then (3, none) else (-1, some 2)⟩

/-- Operating system at the end of the directory: the next `getdents` answers
count 0 and no error. -/
def endOS : OS := ⟨[⟨0, none, []⟩], [], []⟩

/-! ## Basic facts -/

theorem leNat_lt (bs : List Byte) : leNat bs < 256 ^ bs.length := by
  induction bs with
  | nil => simp [leNat]
  | cons b bs ih =>
    have hb := b.isLt
    simp only [leNat, List.length_cons, pow_succ]
    omega

theorem readUint_lt (E : Env) (bs : List Byte) : readUint E bs < 256 ^ bs.length := by
  unfold readUint
  split
  · simpa using leNat_lt bs.reverse
  · exact leNat_lt bs

theorem field_eq_of_le (E : Env) (s : Slice) (o w : Nat) (h : o + w ≤ s.elems.length) :
    s.field E o w = (s.elems.drop o).take w := by
  apply List.ext_getElem
  · simp [Slice.field]; omega
  · intro i h1 h2
    simp only [Slice.field, List.length_map, List.length_range] at h1
    have h3 : o + i < s.elems.length := by omega
    simp [Slice.field, Slice.peek, List.getD_eq_getElem?_getD, List.getElem?_append_left h3,
      List.getElem?_eq_getElem h3]

theorem peek_eq_of_lt (E : Env) (s : Slice) (i : Nat) (h : i < s.elems.length) :
    s.peek E i = s.elems.getD i 0 := by
  simp [Slice.peek, List.getD_eq_getElem?_getD, List.getElem?_append_left h,
    List.getElem?_eq_getElem h]

theorem deReclen_eq (E : Env) (s : Slice) (h : 18 ≤ s.elems.length) :
    deReclen E s = recordLength E s.elems := by
  unfold deReclen recordLength
  rw [field_eq_of_le E s 16 2 (by omega)]

theorem IndexByte_neg_iff (l : List Byte) (c : Byte) : IndexByte l c < 0 ↔ c ∉ l := by
  induction l with
  | nil => simp [IndexByte]
  | cons b bs ih =>
    simp only [IndexByte, List.mem_cons, not_or]
    by_cases hb : b = c
    · simp [hb]
    · have hc : ¬ c = b := fun h => hb h.symm
      simp only [hb, if_false, hc, not_false_eq_true, true_and]
      rw [← ih]
      split <;> omega

theorem IndexByte_take (l : List Byte) (c : Byte) (h : 0 ≤ IndexByte l c) :
    l.take (IndexByte l c).toNat = l.takeWhile (fun b => b ≠ c) ∧
      (IndexByte l c).toNat ≤ l.length := by
  induction l with
  | nil => simp [IndexByte] at h
  | cons b bs ih =>
    simp only [IndexByte] at h ⊢
    by_cases hb : b = c
    · simp [hb]
    · simp only [hb, if_false] at h ⊢
      by_cases hr : IndexByte bs c < 0
      · simp [hr] at h
      · have h0 : 0 ≤ IndexByte bs c := by omega
        obtain ⟨ih1, ih2⟩ := ih h0
        simp only [hr, if_false]
        have e : (IndexByte bs c + 1).toNat = (IndexByte bs c).toNat + 1 := by omega
        rw [e]
        simp [List.takeWhile_cons, hb, ih1]
        omega

theorem takeWhile_eq_self_of_not_mem (l : List Byte) (c : Byte) (h : c ∉ l) :
    l.takeWhile (fun b => b ≠ c) = l := by
  induction l with
  | nil => rfl
  | cons b bs ih =>
    simp only [List.mem_cons, not_or] at h
    have hb : b ≠ c := fun e => h.1 e.symm
    rw [List.takeWhile_cons]
    simp only [hb, ne_eq, not_false_eq_true, decide_True, if_true]
    rw [ih h.2]

theorem overwrite_length (buf data : List Byte) : (overwrite buf data).length = buf.length := by
  simp only [overwrite, List.length_append, List.length_take, List.length_drop]
  omega

theorem overwrite_of_le (buf data : List Byte) (h : data.length ≤ buf.length) :
    overwrite buf data = data ++ buf.drop data.length := by
  simp [overwrite, List.take_of_length_le h]

theorem Getdents_count_le (os : OS) (fd : Int) (buf : List Byte) :
    (Getdents os fd buf).1 ≤ buf.length := by
  simp [Getdents]

theorem Getdents_buf_length (os : OS) (fd : Int) (buf : List Byte) :
    (Getdents os fd buf).2.2.1.length = buf.length := by
  simp [Getdents, overwrite_length]

theorem load_nonempty (E : Env) (ds : loopbackDirStream) (os : OS) (h : ds.todo.elems ≠ []) :
    load E ds os = .ok ds os := by
  have : 0 < ds.todo.elems.length := List.length_pos.mpr h
  simp [load, Slice.len, this]

theorem load_empty (E : Env) (ds : loopbackDirStream) (os : OS) (h : ds.todo.elems = []) :
    load E ds os = .ok (refilled E ds os) (Getdents os ds.fd ds.buf).2.2.2 := by
  have hn := Getdents_count_le os ds.fd ds.buf
  have hl := Getdents_buf_length os ds.fd ds.buf
  generalize hg : Getdents os ds.fd ds.buf = g at hn hl
  obtain ⟨n, err, buf1, os1⟩ := g
  simp only at hn hl
  have hm : (if n < 0 then 0 else n) = max n 0 := by
    split
    · omega
    · omega
  have hc : (max n 0).toNat ≤ buf1.length := by omega
  simp [load, Slice.len, h, hg, refilled, hm, Slice.sliceTo, Slice.slice, Slice.cap, hc]

theorem uint64OfInt_toInt64 (u : Nat) (h : u < 2 ^ 64) : uint64OfInt (toInt64 u) = u := by
  unfold uint64OfInt toInt64
  norm_num at h ⊢
  split <;> omega

theorem slice_some (s : Slice) (lo hi : Nat) (h : lo ≤ hi ∧ hi ≤ s.cap) :
    s.slice lo hi =
      some ⟨((s.elems ++ s.spare).take hi).drop lo, (s.elems ++ s.spare).drop hi⟩ := by
  unfold Slice.slice
  rw [if_pos h]

theorem slice_none (s : Slice) (lo hi : Nat) (h : ¬ (lo ≤ hi ∧ hi ≤ s.cap)) :
    s.slice lo hi = none := by
  unfold Slice.slice
  rw [if_neg h]

/-- Name cut out by `Next`: the slice up to the first zero byte. -/
theorem cutName_eq (nb : Slice) :
    (if IndexByte nb.elems 0 ≥ 0 then nb.sliceTo (IndexByte nb.elems 0).toNat else some nb)
      = some ⟨nb.elems.takeWhile (fun b => b ≠ 0),
          if IndexByte nb.elems 0 ≥ 0 then
            nb.elems.drop (IndexByte nb.elems 0).toNat ++ nb.spare
          else nb.spare⟩ := by
  by_cases hl : IndexByte nb.elems 0 ≥ 0
  · obtain ⟨h1, h2⟩ := IndexByte_take nb.elems 0 hl
    rw [if_pos hl, if_pos hl, Slice.sliceTo, slice_some _ _ _ ⟨Nat.zero_le _, by
      simp only [Slice.cap]; omega⟩]
    simp only [List.drop_zero, List.take_append_of_le_length h2, h1,
      List.drop_append_of_le_length h2]
  · have hm : (0 : Byte) ∉ nb.elems := (IndexByte_neg_iff nb.elems 0).mp (by omega)
    rw [if_neg hl, if_neg hl, takeWhile_eq_self_of_not_mem _ _ hm]

theorem entry_eq_decodeRecord (E : Env) (s : Slice) (h : WellFormedFirst E s.elems) :
    (⟨deIno E s, (deType E s <<< 12) % 2 ^ 32,
      (nameRegion E s.elems).takeWhile (fun b => b ≠ 0), uint64OfInt (deOff E s)⟩ : DirEntry)
      = decodeRecord E s.elems := by
  obtain ⟨h1, h2⟩ := h
  simp only [nameOffset] at h1
  have hI : deIno E s = readUint E (s.elems.take 8) := by
    unfold deIno
    rw [field_eq_of_le E s 0 8 (by omega), List.drop_zero]
  have hT : (deType E s <<< 12) % 2 ^ 32 = (s.elems.getD 18 0).val * 4096 := by
    unfold deType
    rw [peek_eq_of_lt E s 18 (by omega), Nat.shiftLeft_eq]
    have := (s.elems.getD 18 0).isLt
    norm_num
    omega
  have hO : uint64OfInt (deOff E s) = readUint E ((s.elems.drop 8).take 8) := by
    unfold deOff
    rw [field_eq_of_le E s 8 8 (by omega)]
    apply uint64OfInt_toInt64
    have := readUint_lt E ((s.elems.drop 8).take 8)
    have hl : ((s.elems.drop 8).take 8).length = 8 := by
      simp only [List.length_take, List.length_drop]; omega
    rw [hl] at this
    norm_num at this ⊢
    exact this
  rw [hI, hT, hO, decodeRecord]

theorem Next_of_wellFormed (E : Env) (ds : loopbackDirStream) (os : OS)
    (h0 : ds.todoErrno = 0) (hw : WellFormedFirst E ds.todo.elems) :
    Next E ds os =
      match load E (advanced E ds) os with
      | .panic => .panic
      | .ok ds1 os1 => .ok (decodeRecord E ds.todo.elems, 0, ds1) os1 := by
  have hw1 := hw
  obtain ⟨h1, h2⟩ := hw1
  simp only [nameOffset] at h1
  have hlen : ¬ ds.todo.len = 0 := by simp only [Slice.len]; omega
  have hr : deReclen E ds.todo = recordLength E ds.todo.elems :=
    deReclen_eq E ds.todo (by omega)
  have hs1 : nameOffset ≤ recordLength E ds.todo.elems ∧
      recordLength E ds.todo.elems ≤ ds.todo.cap := by
    simp only [nameOffset, Slice.cap]; omega
  have hs2 : recordLength E ds.todo.elems ≤ ds.todo.len ∧ ds.todo.len ≤ ds.todo.cap := by
    simp only [Slice.len, Slice.cap]; omega
  unfold Next
  rw [if_neg (by simp [h0]), if_neg hlen]
  simp only [hr, Slice.sliceFrom]
  rw [slice_some _ _ _ hs1, slice_some _ _ _ hs2]
  simp only []
  have e1 : List.drop nameOffset (List.take (recordLength E ds.todo.elems)
      (ds.todo.elems ++ ds.todo.spare)) = nameRegion E ds.todo.elems := by
    rw [List.take_append_of_le_length h2, nameRegion]
  have e2 : List.drop (recordLength E ds.todo.elems)
      (List.take ds.todo.len (ds.todo.elems ++ ds.todo.spare))
      = ds.todo.elems.drop (recordLength E ds.todo.elems) := by
    simp [Slice.len]
  have e3 : List.drop ds.todo.len (ds.todo.elems ++ ds.todo.spare) = ds.todo.spare := by
    simp [Slice.len]
  rw [e1, e2, e3]
  have hc := cutName_eq ⟨nameRegion E ds.todo.elems,
    List.drop (recordLength E ds.todo.elems) (ds.todo.elems ++ ds.todo.spare)⟩
  simp only at hc
  rw [hc]
  simp only [entry_eq_decodeRecord E ds.todo hw, advanced]

theorem Next_fault (E : Env) (ds : loopbackDirStream) (os : OS) (h : ds.todoErrno ≠ 0) :
    Next E ds os = .ok (DirEntry.zero, ds.todoErrno, ds) os := by
  unfold Next
  rw [if_pos h]

theorem Next_malformed (E : Env) (ds : loopbackDirStream) (os : OS) (h0 : ds.todoErrno = 0)
    (h : recordLength E ds.todo.elems < nameOffset ∨
      ds.todo.elems.length < recordLength E ds.todo.elems) :
    Next E ds os = .panic := by
  unfold Next
  rw [if_neg (by simp [h0])]
  by_cases hlen : ds.todo.len = 0
  · rw [if_pos hlen]
  · rw [if_neg hlen]
    simp only [Slice.len] at hlen
    by_cases h19 : nameOffset ≤ deReclen E ds.todo ∧ deReclen E ds.todo ≤ ds.todo.cap
    · have hbad : ¬ (deReclen E ds.todo ≤ ds.todo.len ∧ ds.todo.len ≤ ds.todo.cap) := by
        intro hc
        have h18 : 18 ≤ ds.todo.elems.length := by
          have := h19.1
          have := hc.1
          simp only [nameOffset, Slice.len] at *
          omega
        rw [deReclen_eq E ds.todo h18] at hc h19
        simp only [nameOffset, Slice.len] at *
        omega
      simp only [Slice.sliceFrom]
      rw [slice_some _ _ _ h19, slice_none _ _ _ hbad]
    · simp only []
      rw [slice_none _ _ _ h19]

theorem Next_wellFormed_more (E : Env) (ds : loopbackDirStream) (os : OS)
    (h0 : ds.todoErrno = 0) (hw : WellFormedFirst E ds.todo.elems)
    (hm : recordLength E ds.todo.elems < ds.todo.elems.length) :
    Next E ds os = .ok (decodeRecord E ds.todo.elems, 0, advanced E ds) os := by
  rw [Next_of_wellFormed E ds os h0 hw, load_nonempty]
  simp only [advanced, ne_eq, List.drop_eq_nil_iff, not_le]
  exact hm

theorem Next_wellFormed_last (E : Env) (ds : loopbackDirStream) (os : OS)
    (h0 : ds.todoErrno = 0) (hw : WellFormedFirst E ds.todo.elems)
    (hm : recordLength E ds.todo.elems = ds.todo.elems.length) :
    Next E ds os = .ok (decodeRecord E ds.todo.elems, 0, refilled E (advanced E ds) os)
      (Getdents os ds.fd ds.buf).2.2.2 := by
  rw [Next_of_wellFormed E ds os h0 hw, load_empty]
  · rfl
  · simp only [advanced, List.drop_eq_nil_iff]
    omega

/-- With no deferred fault and a well-formed first record `Next` returns the
decoded record with status 0. -/
theorem Next_returns (E : Env) (ds : loopbackDirStream) (os : OS)
    (h0 : ds.todoErrno = 0) (hw : WellFormedFirst E ds.todo.elems) :
    ∃ ds1 os1, Next E ds os = .ok (decodeRecord E ds.todo.elems, 0, ds1) os1 := by
  rcases Nat.lt_or_ge (recordLength E ds.todo.elems) ds.todo.elems.length with hm | hm
  · exact ⟨_, _, Next_wellFormed_more E ds os h0 hw hm⟩
  · exact ⟨_, _, Next_wellFormed_last E ds os h0 hw (Nat.le_antisymm hw.2 hm)⟩

theorem window_take (p : List Byte) (n a b : Nat) (h : a + b ≤ n) :
    ((p.take n).drop a).take b = (p.drop a).take b := by
  rw [List.drop_take, List.take_take]
  congr 1
  omega

theorem getD_take (p : List Byte) (n i : Nat) (d : Byte) (h : i < n) :
    (p.take n).getD i d = p.getD i d := by
  simp [List.getD_eq_getElem?_getD, List.getElem?_take, h]

theorem recordLength_take (E : Env) (p : List Byte) (n : Nat) (h : 18 ≤ n) :
    recordLength E (p.take n) = recordLength E p := by
  unfold recordLength
  rw [window_take p n 16 2 (by omega)]

theorem decodeRecord_take (E : Env) (p : List Byte) (n : Nat) (h19 : 19 ≤ n)
    (hn : recordLength E p ≤ n) : decodeRecord E (p.take n) = decodeRecord E p := by
  unfold decodeRecord nameRegion
  rw [recordLength_take E p n (by omega), getD_take p n 18 0 (by omega),
    window_take p n 8 8 (by omega), List.take_take, List.take_take,
    Nat.min_eq_left hn, Nat.min_eq_left (by omega : 8 ≤ n)]

theorem decodeRecord_congr (E : Env) (p q : List Byte) (hw : WellFormedFirst E p)
    (h : p.take (recordLength E p) = q.take (recordLength E p)) :
    WellFormedFirst E q ∧ recordLength E q = recordLength E p ∧
      decodeRecord E p = decodeRecord E q := by
  obtain ⟨h1, h2⟩ := hw
  simp only [nameOffset] at h1
  have hr : recordLength E q = recordLength E p := by
    rw [← recordLength_take E q (recordLength E p) (by omega), ← h,
      recordLength_take E p (recordLength E p) (by omega)]
  have hl : recordLength E p ≤ q.length := by
    have := congrArg List.length h
    simp only [List.length_take] at this
    omega
  refine ⟨⟨by rw [hr]; simpa [nameOffset] using h1, by rw [hr]; exact hl⟩, hr, ?_⟩
  rw [← decodeRecord_take E p (recordLength E p) h1 (le_refl _), h,
    decodeRecord_take E q (recordLength E p) h1 (by rw [hr])]

theorem takeWhile_stops (pre post : List Byte) (h : (0 : Byte) ∉ pre) :
    (pre ++ 0 :: post).takeWhile (fun b => b ≠ 0) = pre := by
  induction pre with
  | nil => simp
  | cons b bs ih =>
    simp only [List.mem_cons, not_or] at h
    have hb : b ≠ 0 := fun e => h.1 e.symm
    rw [List.cons_append, List.takeWhile_cons]
    simp only [hb, ne_eq, not_false_eq_true, decide_True, if_true]
    rw [ih h.2]

theorem nameRegion_length (E : Env) (p : List Byte) (h : recordLength E p ≤ p.length) :
    (nameRegion E p).length = recordLength E p - nameOffset := by
  simp only [nameRegion, List.length_drop, List.length_take]
  omega

theorem recordLength_append (E : Env) (r t : List Byte) (h : 18 ≤ r.length) :
    recordLength E (r ++ t) = recordLength E r := by
  rw [← recordLength_take E (r ++ t) r.length h, List.take_left]

theorem wellFormedFirst_append (E : Env) (r t : List Byte) (h : WellFormedRecord E r) :
    WellFormedFirst E (r ++ t) ∧ recordLength E (r ++ t) = r.length ∧
      decodeRecord E (r ++ t) = decodeRecord E r := by
  obtain ⟨h1, h2⟩ := h
  simp only [nameOffset] at h1
  have hr : recordLength E (r ++ t) = r.length := by
    rw [recordLength_append E r t (by omega), h2]
  refine ⟨⟨by rw [hr]; simpa [nameOffset] using h1, by rw [hr]; simp⟩, hr, ?_⟩
  rw [← decodeRecord_take E (r ++ t) r.length h1 (by rw [hr]), List.take_left]

theorem Getdents_cons (os : OS) (fd : Int) (buf : List Byte) (r : ReadResult)
    (rest : List ReadResult) (h : os.script = r :: rest) :
    Getdents os fd buf = (min r.n buf.length, r.err, overwrite buf r.mem,
      ⟨rest, os.reads ++ [(fd, buf.length)], os.closes⟩) := by
  simp [Getdents, h]

theorem refilled_chunk (E : Env) (ds : loopbackDirStream) (os : OS) (c : List (List Byte))
    (rest : List ReadResult) (h : os.script = chunkResult c :: rest)
    (hc : c.flatten.length ≤ ds.buf.length) :
    (refilled E ds os).todo.elems = c.flatten ∧
      (refilled E ds os).todoErrno = E.ToErrno none ∧
      (refilled E ds os).buf.length = ds.buf.length ∧
      (Getdents os ds.fd ds.buf).2.2.2.script = rest := by
  have hl := Getdents_buf_length os ds.fd ds.buf
  have hn : (max (min (c.flatten.length : Int) (ds.buf.length : Int)) 0).toNat
      = c.flatten.length := by omega
  refine ⟨?_, ?_, hl, ?_⟩
  · simp only [refilled, Getdents_cons os ds.fd ds.buf _ rest h, chunkResult, hn,
      overwrite_of_le _ _ hc, List.take_left]
  · simp only [refilled, Getdents_cons os ds.fd ds.buf _ rest h, chunkResult]
  · simp only [Getdents_cons os ds.fd ds.buf _ rest h]

theorem refilled_eof (E : Env) (ds : loopbackDirStream) (os : OS) (eof : ReadResult)
    (rest : List ReadResult) (h : os.script = eof :: rest) (hz : eof.n = 0) :
    (refilled E ds os).todo.elems = [] ∧
      (refilled E ds os).todoErrno = E.ToErrno eof.err := by
  have hn : (max (min (0 : Int) (ds.buf.length : Int)) 0).toNat = 0 := by omega
  constructor
  · simp only [refilled, Getdents_cons os ds.fd ds.buf _ rest h, hz, hn, List.take_zero]
  · simp only [refilled, Getdents_cons os ds.fd ds.buf _ rest h]

theorem flatten_ne_nil_of_records (E : Env) (r : List Byte) (rs : List (List Byte))
    (h : WellFormedRecord E r) : (r :: rs).flatten ≠ [] := by
  have := h.1
  simp only [nameOffset] at this
  intro hc
  have := congrArg List.length hc
  simp only [List.flatten_cons, List.length_append, List.length_nil] at this
  omega

theorem drain_records (E : Env) (eof : ReadResult) (rest : List ReadResult)
    (hnil : E.ToErrno none = 0) (hz : eof.n = 0) (he : E.ToErrno eof.err = 0) :
    ∀ (fuel : Nat) (rs : List (List Byte)) (cs : List (List (List Byte)))
      (ds : loopbackDirStream) (os : OS),
      (∀ r ∈ rs, WellFormedRecord E r) →
      (∀ c ∈ cs, c ≠ [] ∧ (∀ r ∈ c, WellFormedRecord E r) ∧
        c.flatten.length ≤ ds.buf.length) →
      ds.todo.elems = rs.flatten → ds.todoErrno = 0 →
      (rs ≠ [] → os.script = cs.map chunkResult ++ eof :: rest) →
      (rs = [] → cs = []) →
      rs.length + cs.flatten.length < fuel →
      drain E fuel ds os = .done ((rs ++ cs.flatten).map (decodeRecord E)) := by
  intro fuel
  induction fuel with
  | zero =>
    intro rs cs ds os _ _ _ _ _ _ hf
    omega
  | succ fuel ih =>
    intro rs cs ds os hrs hcs hel h0 hscr hemp hf
    cases rs with
    | nil =>
      have hcs0 := hemp rfl
      subst hcs0
      have hnone : ds.todo.elems = [] := by simpa using hel
      simp [drain, HasNext, Slice.len, hnone, h0]
    | cons r rs1 =>
      have hr := hrs r (List.mem_cons_self _ _)
      obtain ⟨hwf, hlen, hdec⟩ := wellFormedFirst_append E r rs1.flatten hr
      have hel1 : ds.todo.elems = r ++ rs1.flatten := by simpa using hel
      have hr19 : 19 ≤ r.length := by
        have := hr.1
        simpa [nameOffset] using this
      have hpos : 0 < ds.todo.elems.length := by
        rw [hel1, List.length_append]
        omega
      have hH : HasNext ds os = .ok (true, ds) os := by
        simp [HasNext, Slice.len, hpos]
      rw [← hel1] at hwf hlen hdec
      have hscr1 := hscr (List.cons_ne_nil _ _)
      cases rs1 with
      | nil =>
        have hm : recordLength E ds.todo.elems = ds.todo.elems.length := by
          rw [hlen, hel1]
          simp
        have hN := Next_wellFormed_last E ds os h0 hwf hm
        cases cs with
        | nil =>
          simp only [List.map_nil, List.nil_append] at hscr1
          obtain ⟨e1, e2⟩ := refilled_eof E (advanced E ds) os eof rest hscr1 hz
          have hrec := ih [] [] (refilled E (advanced E ds) os)
            (Getdents os ds.fd ds.buf).2.2.2 (by simp) (by simp) (by simpa using e1)
            (by rw [e2, he]) (by simp) (by simp) (by simp at hf ⊢; omega)
          simp only [drain, hH, hN, ne_eq, not_true_eq_false, if_false, hrec, hdec]
          simp
        | cons c cs1 =>
          obtain ⟨hcne, hcwf, hccap⟩ := hcs c (List.mem_cons_self _ _)
          simp only [List.map_cons, List.cons_append] at hscr1
          obtain ⟨e1, e2, e3, e4⟩ :=
            refilled_chunk E (advanced E ds) os c _ hscr1 hccap
          have e3' : (refilled E (advanced E ds) os).buf.length = ds.buf.length := e3
          have hrec := ih c cs1 (refilled E (advanced E ds) os)
            (Getdents os ds.fd ds.buf).2.2.2 hcwf
            (by
              intro c' hc'
              rw [e3']
              exact hcs c' (List.mem_cons_of_mem _ hc'))
            e1 (by rw [e2, hnil]) (fun _ => e4) (fun h => absurd h hcne)
            (by
              simp only [List.length_cons, List.length_nil, List.flatten_cons,
                List.length_append] at hf
              omega)
          simp only [drain, hH, hN, ne_eq, not_true_eq_false, if_false, hrec, hdec]
          simp
      | cons r2 rs2 =>
        have hr2 := hrs r2 (List.mem_cons_of_mem _ (List.mem_cons_self _ _))
        have hne2 := flatten_ne_nil_of_records E r2 rs2 hr2
        have hm : recordLength E ds.todo.elems < ds.todo.elems.length := by
          rw [hlen, hel1, List.length_append]
          have := List.length_pos.mpr hne2
          omega
        have hN := Next_wellFormed_more E ds os h0 hwf hm
        have hrec := ih (r2 :: rs2) cs (advanced E ds) os
          (fun x hx => hrs x (List.mem_cons_of_mem _ hx)) hcs
          (by
            simp only [advanced, hlen]
            rw [hel1, List.drop_left])
          h0 (fun _ => hscr1) (fun h => absurd h (List.cons_ne_nil _ _))
          (by
            simp only [List.length_cons] at hf ⊢
            omega)
        simp only [drain, hH, hN, ne_eq, not_true_eq_false, if_false, hrec, hdec]
        simp

theorem decodeAll_records (E : Env) (rs : List (List Byte)) :
    ∀ fuel, (∀ r ∈ rs, WellFormedRecord E r) → rs.length ≤ fuel →
      decodeAll E fuel rs.flatten = rs.map (decodeRecord E) := by
  induction rs with
  | nil =>
    intro fuel _ _
    cases fuel <;> simp [decodeAll]
  | cons r rs ih =>
    intro fuel hrs hf
    cases fuel with
    | zero => simp at hf
    | succ fuel =>
      have hr := hrs r (List.mem_cons_self _ _)
      obtain ⟨hwf, hlen, hdec⟩ := wellFormedFirst_append E r rs.flatten hr
      have hne := flatten_ne_nil_of_records E r rs hr
      simp only [List.flatten_cons] at hne ⊢
      simp only [decodeAll, hne, if_false, hwf, if_true, hlen, List.drop_left, hdec,
        List.map_cons]
      rw [ih fuel (fun x hx => hrs x (List.mem_cons_of_mem _ hx))
        (by simp only [List.length_cons] at hf; omega)]

theorem records_length_le_flatten (E : Env) (rs : List (List Byte))
    (h : ∀ r ∈ rs, WellFormedRecord E r) : rs.length ≤ rs.flatten.length := by
  induction rs with
  | nil => simp
  | cons r rs ih =>
    have hr := (h r (List.mem_cons_self _ _)).1
    have := ih (fun x hx => h x (List.mem_cons_of_mem _ hx))
    simp only [nameOffset] at hr
    simp only [List.length_cons, List.flatten_cons, List.length_append]
    omega

theorem decodeStream_records (E : Env) (rs : List (List Byte))
    (h : ∀ r ∈ rs, WellFormedRecord E r) :
    decodeStream E rs.flatten = rs.map (decodeRecord E) :=
  decodeAll_records E rs _ h (records_length_le_flatten E rs h)

/-- Full iteration from a fresh stream with an arbitrary buffer: the first
refill, then the caller's loop. -/
theorem drain_fresh (E : Env) (fd : Int) (buf : List Byte)
    (chunks : List (List (List Byte))) (eof : ReadResult) (rest : List ReadResult) (os : OS)
    (hnil : E.ToErrno none = 0) (hz : eof.n = 0) (he : E.ToErrno eof.err = 0)
    (hchunks : ∀ c ∈ chunks, c ≠ [] ∧ (∀ r ∈ c, WellFormedRecord E r) ∧
      c.flatten.length ≤ buf.length)
    (hscript : os.script = chunks.map chunkResult ++ eof :: rest)
    (fuel : Nat) (hfuel : chunks.flatten.length < fuel) :
    ∃ ds1 os1, load E ⟨buf, ⟨[], []⟩, 0, fd⟩ os = .ok ds1 os1 ∧
      drain E fuel ds1 os1 = .done (chunks.flatten.map (decodeRecord E)) := by
  refine ⟨_, _, load_empty E ⟨buf, ⟨[], []⟩, 0, fd⟩ os rfl, ?_⟩
  cases chunks with
  | nil =>
    simp only [List.map_nil, List.nil_append] at hscript
    obtain ⟨e1, e2⟩ := refilled_eof E ⟨buf, ⟨[], []⟩, 0, fd⟩ os eof rest hscript hz
    have := drain_records E eof rest hnil hz he fuel [] []
      (refilled E ⟨buf, ⟨[], []⟩, 0, fd⟩ os) (Getdents os fd buf).2.2.2 (by simp) (by simp)
      (by simpa using e1) (by rw [e2, he]) (by simp) (by simp) (by simpa using hfuel)
    simpa using this
  | cons c cs =>
    obtain ⟨hcne, hcwf, hccap⟩ := hchunks c (List.mem_cons_self _ _)
    simp only [List.map_cons, List.cons_append] at hscript
    obtain ⟨e1, e2, e3, e4⟩ :=
      refilled_chunk E ⟨buf, ⟨[], []⟩, 0, fd⟩ os c _ hscript hccap
    have e3' : (refilled E ⟨buf, ⟨[], []⟩, 0, fd⟩ os).buf.length = buf.length := e3
    have := drain_records E eof rest hnil hz he fuel c cs _ _ hcwf
      (by
        intro c' hc'
        rw [e3']
        exact hchunks c' (List.mem_cons_of_mem _ hc'))
      e1 (by rw [e2, hnil]) (fun _ => e4) (fun h => absurd h hcne)
      (by
        simp only [List.flatten_cons, List.length_append] at hfuel
        exact hfuel)
    simpa using this

/-- Evaluation: the caller's loop over two pending records. -/
theorem drain_eval : drain sampleEnv 5 (sampleStream (recA ++ recB) 0) ⟨[⟨0, none, []⟩], [], []⟩
    = .done [⟨1, 32768, [97], 2⟩, ⟨258, 16384, [98, 99, 100, 101, 102], 2 ^ 64 - 1⟩] := by
  decide

/-- Evaluation: first of two pending records, nothing to refill. -/
theorem Next_eval_first : Next sampleEnv ⟨recA ++ recB, ⟨recA ++ recB, []⟩, 0, 3⟩ ⟨[], [], []⟩
    = .ok (⟨1, 32768, [97], 2⟩, 0, ⟨recA ++ recB, ⟨recB, []⟩, 0, 3⟩) ⟨[], [], []⟩ := by
  decide

/-- Evaluation: last pending record, followed by a refill that fails. -/
theorem Next_eval_last : Next sampleEnv ⟨recA ++ recB, ⟨recB, []⟩, 0, 3⟩ ⟨[⟨-1, some 5, []⟩], [], []⟩
    = .ok (⟨258, 16384, [98, 99, 100, 101, 102], 2 ^ 64 - 1⟩, 0,
        ⟨recA ++ recB, ⟨[], recA ++ recB⟩, 5, 3⟩) ⟨[], [(3, 48)], []⟩ := by
  decide

theorem Close_open (ds : loopbackDirStream) (os : OS) (h : ds.fd ≠ -1) :
    Close ds os = .ok ⟨ds.buf, ds.todo, ds.todoErrno, -1⟩
      ⟨os.script, os.reads, os.closes ++ [ds.fd]⟩ := by
  unfold Close
  rw [if_pos h]

theorem Close_closed (ds : loopbackDirStream) (os : OS) (h : ds.fd = -1) :
    Close ds os = .ok ds os := by
  unfold Close
  rw [if_neg (by simp [h])]

theorem not_wellFormedFirst (E : Env) (p : List Byte) (h : ¬ WellFormedFirst E p) :
    recordLength E p < nameOffset ∨ p.length < recordLength E p := by
  unfold WellFormedFirst at h
  omega

/-- What `Next` does to the operating system once the descriptor is the
sentinel: nothing, or one `getdents` on the sentinel when the last pending
record is consumed. -/
theorem Next_closed (E : Env) (d : loopbackDirStream) (o : OS) (hfd : d.fd = -1) :
    Next E d o = .panic ∨
      ∃ e errno d1 o1, Next E d o = .ok (e, errno, d1) o1 ∧ d1.fd = -1 ∧
        o1.closes = o.closes ∧
        (o1.reads = o.reads ∨
          (o1.reads = o.reads ++ [(-1, d.buf.length)] ∧ d.todoErrno = 0 ∧
            WellFormedFirst E d.todo.elems ∧
            recordLength E d.todo.elems = d.todo.elems.length)) := by
  by_cases h0 : d.todoErrno = 0
  · by_cases hw : WellFormedFirst E d.todo.elems
    · right
      rcases Nat.lt_or_ge (recordLength E d.todo.elems) d.todo.elems.length with hm | hm
      · exact ⟨_, _, _, _, Next_wellFormed_more E d o h0 hw hm, hfd, rfl, Or.inl rfl⟩
      · have hm1 := Nat.le_antisymm hw.2 hm
        refine ⟨_, _, _, _, Next_wellFormed_last E d o h0 hw hm1, hfd, rfl, Or.inr ⟨?_, h0, hw, hm1⟩⟩
        simp only [Getdents, hfd]
    · left
      exact Next_malformed E d o h0 (not_wellFormedFirst E _ hw)
  · right
    exact ⟨_, _, _, _, Next_fault E d o h0, hfd, rfl, Or.inl rfl⟩

theorem step_closed (E : Env) (op : Op) (d d1 : loopbackDirStream) (o o1 : OS)
    (hfd : d.fd = -1) (h : step E op d o = .ok d1 o1) :
    d1.fd = -1 ∧ o1.closes = o.closes ∧
      ∃ extra, o1.reads = o.reads ++ extra ∧ ∀ x ∈ extra, x.1 = -1 := by
  cases op with
  | hasNext =>
    simp only [step, HasNext, Run.ok.injEq] at h
    obtain ⟨h1, h2⟩ := h
    subst h1 h2
    exact ⟨hfd, rfl, [], by simp, by simp⟩
  | close =>
    simp only [step, Close_closed d o hfd, Run.ok.injEq] at h
    obtain ⟨h1, h2⟩ := h
    subst h1 h2
    exact ⟨hfd, rfl, [], by simp, by simp⟩
  | next =>
    rcases Next_closed E d o hfd with hp | ⟨e, errno, d2, o2, hN, hfd2, hc, hr⟩
    · simp [step, hp] at h
    · simp only [step, hN, Run.ok.injEq] at h
      obtain ⟨h1, h2⟩ := h
      subst h1 h2
      refine ⟨hfd2, hc, ?_⟩
      rcases hr with hr | ⟨hr, _⟩
      · exact ⟨[], by simp [hr], by simp⟩
      · exact ⟨[(-1, d.buf.length)], hr, by simp⟩

theorem runOps_closed (E : Env) (ops : List Op) :
    ∀ (d d1 : loopbackDirStream) (o o1 : OS), d.fd = -1 → runOps E ops d o = .ok d1 o1 →
      d1.fd = -1 ∧ o1.closes = o.closes ∧
        ∃ extra, o1.reads = o.reads ++ extra ∧ ∀ x ∈ extra, x.1 = -1 := by
  induction ops with
  | nil =>
    intro d d1 o o1 hfd h
    simp only [runOps, Run.ok.injEq] at h
    obtain ⟨h1, h2⟩ := h
    subst h1 h2
    exact ⟨hfd, rfl, [], by simp, by simp⟩
  | cons op ops ih =>
    intro d d1 o o1 hfd h
    simp only [runOps] at h
    cases hs : step E op d o with
    | panic => simp [hs] at h
    | ok d2 o2 =>
      simp only [hs] at h
      obtain ⟨hfd2, hc2, ex2, hr2, hx2⟩ := step_closed E op d d2 o o2 hfd hs
      obtain ⟨hfd1, hc1, ex1, hr1, hx1⟩ := ih d2 d1 o2 o1 hfd2 h
      refine ⟨hfd1, by rw [hc1, hc2], ex2 ++ ex1, by rw [hr1, hr2, List.append_assoc], ?_⟩
      intro x hx
      rcases List.mem_append.mp hx with hx | hx
      · exact hx2 x hx
      · exact hx1 x hx

theorem CloseTimes_closed (n : Nat) (ds : loopbackDirStream) (os : OS) (h : ds.fd = -1) :
    CloseTimes n ds os = .ok ds os := by
  induction n with
  | zero => rfl
  | succ n ih => simp only [CloseTimes, Close_closed ds os h, ih]

theorem HasNextTimes_false (n : Nat) (ds : loopbackDirStream) (os : OS)
    (h1 : ds.todo.elems = []) (h2 : ds.todoErrno = 0) :
    HasNextTimes n ds os = .ok (List.replicate n false, ds) os := by
  induction n with
  | zero => rfl
  | succ n ih =>
    simp only [HasNextTimes, HasNext, ih, List.replicate_succ]
    simp [Slice.len, h1, h2]

theorem Records_nil (E : Env) : Records E [] :=
  ⟨[], by simp, rfl⟩

theorem Records_first (E : Env) (p : List Byte) (h : Records E p) (hne : p ≠ []) :
    WellFormedFirst E p ∧ Records E (p.drop (recordLength E p)) := by
  obtain ⟨rs, hrs, hp⟩ := h
  cases rs with
  | nil =>
    simp only [List.flatten_nil] at hp
    exact absurd hp hne
  | cons r rs =>
    have hr := hrs r (List.mem_cons_self _ _)
    obtain ⟨hwf, hlen, _⟩ := wellFormedFirst_append E r rs.flatten hr
    rw [List.flatten_cons] at hp
    subst hp
    refine ⟨hwf, rs, fun x hx => hrs x (List.mem_cons_of_mem _ hx), ?_⟩
    rw [hlen, List.drop_left]

theorem refilled_atBoundary (E : Env) (ds : loopbackDirStream) (os : OS)
    (hos : ∀ r ∈ os.script, GoodRead E ds.buf.length r) :
    AtBoundary E (refilled E ds os) (Getdents os ds.fd ds.buf).2.2.2 := by
  have hl : (refilled E ds os).buf.length = ds.buf.length := Getdents_buf_length os ds.fd ds.buf
  cases hs : os.script with
  | nil =>
    constructor
    · have hn : (max (min (0 : Int) (ds.buf.length : Int)) 0).toNat = 0 := by omega
      simp only [refilled, Getdents, hs, List.headD_nil, hn, List.take_zero]
      exact Records_nil E
    · intro r hr
      simp [Getdents, hs] at hr
  | cons r rest =>
    have hg := hos r (by rw [hs]; exact List.mem_cons_self _ _)
    constructor
    · rcases hg with hneg | ⟨hn, hcap, hrec⟩
      · have hk : (max (min r.n (ds.buf.length : Int)) 0).toNat = 0 := by omega
        simp only [refilled, Getdents_cons os ds.fd ds.buf r rest hs, hk, List.take_zero]
        exact Records_nil E
      · have hk : (max (min r.n (ds.buf.length : Int)) 0).toNat = r.mem.length := by omega
        simp only [refilled, Getdents_cons os ds.fd ds.buf r rest hs, hk,
          overwrite_of_le _ _ hcap, List.take_left]
        exact hrec
    · intro x hx
      simp only [Getdents_cons os ds.fd ds.buf r rest hs] at hx
      rw [hl]
      exact hos x (by rw [hs]; exact List.mem_cons_of_mem _ hx)

theorem load_atBoundary (E : Env) (ds : loopbackDirStream) (os : OS)
    (h : AtBoundary E ds os) :
    ∃ ds1 os1, load E ds os = .ok ds1 os1 ∧ AtBoundary E ds1 os1 := by
  by_cases he : ds.todo.elems = []
  · exact ⟨_, _, load_empty E ds os he, refilled_atBoundary E ds os h.2⟩
  · exact ⟨_, _, load_nonempty E ds os he, h⟩

theorem Next_atBoundary (E : Env) (ds : loopbackDirStream) (os : OS)
    (h : AtBoundary E ds os) :
    (ds.todo.elems = [] ∧ ds.todoErrno = 0 ∧ Next E ds os = .panic) ∨
      ∃ e errno ds1 os1, Next E ds os = .ok (e, errno, ds1) os1 ∧ AtBoundary E ds1 os1 := by
  by_cases h0 : ds.todoErrno = 0
  · by_cases he : ds.todo.elems = []
    · left
      refine ⟨he, h0, Next_malformed E ds os h0 (Or.inl ?_)⟩
      rw [he]
      simp [recordLength, readUint, leNat, nameOffset]
    · right
      obtain ⟨hwf, hrest⟩ := Records_first E _ h.1 he
      have hadv : AtBoundary E (advanced E ds) os := ⟨hrest, h.2⟩
      obtain ⟨ds1, os1, hl, hb⟩ := load_atBoundary E (advanced E ds) os hadv
      refine ⟨decodeRecord E ds.todo.elems, 0, ds1, os1, ?_, hb⟩
      rw [Next_of_wellFormed E ds os h0 hwf, hl]
  · right
    exact ⟨_, _, _, _, Next_fault E ds os h0, h⟩

theorem Close_atBoundary (E : Env) (ds : loopbackDirStream) (os : OS)
    (h : AtBoundary E ds os) :
    ∃ ds1 os1, Close ds os = .ok ds1 os1 ∧ AtBoundary E ds1 os1 := by
  by_cases hfd : ds.fd = -1
  · exact ⟨_, _, Close_closed ds os hfd, h⟩
  · exact ⟨_, _, Close_open ds os hfd, h⟩

theorem step_atBoundary (E : Env) (op : Op) (ds ds1 : loopbackDirStream) (os os1 : OS)
    (h : AtBoundary E ds os) (hs : step E op ds os = .ok ds1 os1) : AtBoundary E ds1 os1 := by
  cases op with
  | hasNext =>
    simp only [step, HasNext, Run.ok.injEq] at hs
    obtain ⟨h1, h2⟩ := hs
    subst h1 h2
    exact h
  | close =>
    obtain ⟨d, o, hc, hb⟩ := Close_atBoundary E ds os h
    simp only [step, hc, Run.ok.injEq] at hs
    obtain ⟨h1, h2⟩ := hs
    subst h1 h2
    exact hb
  | next =>
    rcases Next_atBoundary E ds os h with ⟨_, _, hp⟩ | ⟨e, errno, d, o, hN, hb⟩
    · simp [step, hp] at hs
    · simp only [step, hN, Run.ok.injEq] at hs
      obtain ⟨h1, h2⟩ := hs
      subst h1 h2
      exact hb

theorem runOps_atBoundary (E : Env) (ops : List Op) :
    ∀ (ds ds1 : loopbackDirStream) (os os1 : OS), AtBoundary E ds os →
      runOps E ops ds os = .ok ds1 os1 → AtBoundary E ds1 os1 := by
  induction ops with
  | nil =>
    intro ds ds1 os os1 h hr
    simp only [runOps, Run.ok.injEq] at hr
    obtain ⟨h1, h2⟩ := hr
    subst h1 h2
    exact h
  | cons op ops ih =>
    intro ds ds1 os os1 h hr
    simp only [runOps] at hr
    cases hs : step E op ds os with
    | panic => simp [hs] at hr
    | ok d2 o2 =>
      simp only [hs] at hr
      exact ih d2 ds1 o2 os1 (step_atBoundary E op ds d2 os o2 h hs) hr

/-- As many `Next` calls as there are whole records pending return the
entries of these records, in order and with status 0, whatever the operating
system answers when the last of them is consumed. -/
theorem NextTimes_buffered (E : Env) (rs : List (List Byte)) :
    ∀ (d : loopbackDirStream) (o : OS), (∀ r ∈ rs, WellFormedRecord E r) →
      d.todo.elems = rs.flatten → d.todoErrno = 0 →
      ∃ l dN oN, NextTimes E rs.length d o = .ok (l, dN) oN ∧
        l.map (fun x => (x.1, x.2.1)) = rs.map (fun r => (decodeRecord E r, 0)) := by
  induction rs with
  | nil =>
    intro d o _ _ _
    exact ⟨[], d, o, rfl, rfl⟩
  | cons r rs ih =>
    intro d o hrs hel h0
    have hr := hrs r (List.mem_cons_self _ _)
    obtain ⟨hwf, hlen, hdec⟩ := wellFormedFirst_append E r rs.flatten hr
    have hel1 : d.todo.elems = r ++ rs.flatten := by simpa using hel
    rw [← hel1] at hwf hlen hdec
    cases rs with
    | nil =>
      have hm : recordLength E d.todo.elems = d.todo.elems.length := by
        rw [hlen, hel1]
        simp
      have hN := Next_wellFormed_last E d o h0 hwf hm
      refine ⟨[(decodeRecord E d.todo.elems, 0,
        decide ((refilled E (advanced E d) o).todo.len > 0) ||
          decide ((refilled E (advanced E d) o).todoErrno ≠ 0))],
        refilled E (advanced E d) o, (Getdents o d.fd d.buf).2.2.2, ?_, ?_⟩
      · simp only [List.length_cons, List.length_nil, NextTimes, hN, HasNext]
      · simp only [List.map_cons, List.map_nil, hdec]
    | cons r2 rs2 =>
      have hr2 := hrs r2 (List.mem_cons_of_mem _ (List.mem_cons_self _ _))
      have hne2 := flatten_ne_nil_of_records E r2 rs2 hr2
      have hm : recordLength E d.todo.elems < d.todo.elems.length := by
        rw [hlen, hel1, List.length_append]
        have := List.length_pos.mpr hne2
        omega
      have hN := Next_wellFormed_more E d o h0 hwf hm
      obtain ⟨l, dN, oN, hT, hl⟩ := ih (advanced E d) o
        (fun x hx => hrs x (List.mem_cons_of_mem _ hx))
        (by
          simp only [advanced, hlen]
          rw [hel1, List.drop_left])
        h0
      refine ⟨(decodeRecord E d.todo.elems, 0,
        decide ((advanced E d).todo.len > 0) || decide ((advanced E d).todoErrno ≠ 0)) :: l,
        dN, oN, ?_, ?_⟩
      · have e : (r :: r2 :: rs2).length = (r2 :: rs2).length + 1 := rfl
        rw [e]
        generalize (r2 :: rs2).length = n at hT
        simp only [NextTimes, hN, HasNext, hT]
      · simp only [List.map_cons, hdec] at hl ⊢
        rw [hl]

/-! ## The claims -/

/-- C1: let the coming `getdents` answers be a finite sequence of chunks, each
a concatenation of one or more whole well-formed records, followed by an
answer with count 0 and no error.  Then opening the stream and repeating
`if HasNext then Next` ends (any fuel above the number of records is enough)
and returns exactly the entries decoded from the concatenation of all chunks:
one entry per record, in order.  The result is a function of the concatenated
bytes alone, so it does not depend on how the records are cut into chunks,
and it is the same for a buffer of any capacity that holds each chunk (4096
in `NewLoopbackDirStream`). -/
theorem C1_full_iteration_yields_all_entries (E : Env) (name : String) (fd : Int)
    (chunks : List (List (List Byte))) (eof : ReadResult) (rest : List ReadResult) (os : OS)
    (hopen : E.sysOpen name = (fd, none))
    (hnil : E.ToErrno none = 0) (hz : eof.n = 0) (he : E.ToErrno eof.err = 0)
    (hchunks : ∀ c ∈ chunks, c ≠ [] ∧ ∀ r ∈ c, WellFormedRecord E r)
    (hscript : os.script = chunks.map chunkResult ++ eof :: rest)
    (fuel : Nat) (hfuel : chunks.flatten.length < fuel) :
    decodeStream E chunks.flatten.flatten = chunks.flatten.map (decodeRecord E) ∧
    ((∀ c ∈ chunks, c.flatten.length ≤ 4096) →
      readDir E name fuel os = .done (decodeStream E chunks.flatten.flatten)) ∧
    (∀ buf : List Byte, (∀ c ∈ chunks, c.flatten.length ≤ buf.length) →
      ∃ ds1 os1, load E ⟨buf, ⟨[], []⟩, 0, fd⟩ os = .ok ds1 os1 ∧
        drain E fuel ds1 os1 = .done (decodeStream E chunks.flatten.flatten)) := by
  have hall : ∀ r ∈ chunks.flatten, WellFormedRecord E r := by
    intro r hr
    obtain ⟨c, hc, hrc⟩ := List.mem_flatten.mp hr
    exact (hchunks c hc).2 r hrc
  have hds := decodeStream_records E chunks.flatten hall
  refine ⟨hds, ?_, ?_⟩
  · intro hcap
    obtain ⟨ds1, os1, hl, hd⟩ := drain_fresh E fd (List.replicate 4096 0) chunks eof rest os
      hnil hz he
      (fun c hc => ⟨(hchunks c hc).1, (hchunks c hc).2, by
        rw [List.length_replicate]
        exact hcap c hc⟩)
      hscript fuel hfuel
    simp only [readDir, NewLoopbackDirStream, hopen, ne_eq, not_true_eq_false, if_false, hl,
      hd, hds]
  · intro buf hcap
    obtain ⟨ds1, os1, hl, hd⟩ := drain_fresh E fd buf chunks eof rest os hnil hz he
      (fun c hc => ⟨(hchunks c hc).1, (hchunks c hc).2, hcap c hc⟩) hscript fuel hfuel
    exact ⟨ds1, os1, hl, by rw [hd, hds]⟩

/-- Witness for C1: the records "a" and "bcdef" delivered in two chunks. -/
theorem C1_full_iteration_yields_all_entries_witness :
    sampleEnv.sysOpen "d" = (3, none) ∧ sampleEnv.ToErrno none = 0 ∧
    (⟨0, none, []⟩ : ReadResult).n = 0 ∧
    sampleEnv.ToErrno (⟨0, none, []⟩ : ReadResult).err = 0 ∧
    (∀ c ∈ [[recA], [recB]], c ≠ [] ∧ ∀ r ∈ c, WellFormedRecord sampleEnv r) ∧
    twoChunkOS.script = [[recA], [recB]].map chunkResult ++ ⟨0, none, []⟩ :: [] ∧
    [[recA], [recB]].flatten.length < 3 ∧
    (decodeStream sampleEnv [[recA], [recB]].flatten.flatten
        = [[recA], [recB]].flatten.map (decodeRecord sampleEnv) ∧
      ((∀ c ∈ [[recA], [recB]], c.flatten.length ≤ 4096) →
        readDir sampleEnv "d" 3 twoChunkOS
          = .done (decodeStream sampleEnv [[recA], [recB]].flatten.flatten)) ∧
      (∀ buf : List Byte, (∀ c ∈ [[recA], [recB]], c.flatten.length ≤ buf.length) →
        ∃ ds1 os1, load sampleEnv ⟨buf, ⟨[], []⟩, 0, 3⟩ twoChunkOS = .ok ds1 os1 ∧
          drain sampleEnv 3 ds1 os1
            = .done (decodeStream sampleEnv [[recA], [recB]].flatten.flatten))) :=
  ⟨rfl, rfl, rfl, rfl, by decide, rfl, by decide,
    C1_full_iteration_yields_all_entries sampleEnv "d" 3 [[recA], [recB]] ⟨0, none, []⟩ []
      twoChunkOS rfl rfl rfl rfl (by decide) rfl 3 (by decide)⟩

/-- C2: `HasNext` answers true exactly when the pending region `todo` is
non-empty or the deferred fault `todoErrno` is non-zero. -/
theorem C2_hasNext_iff (ds : loopbackDirStream) (os : OS) :
    ∃ b, HasNext ds os = .ok (b, ds) os ∧
      (b = true ↔ (ds.todo.elems ≠ [] ∨ ds.todoErrno ≠ 0)) := by
  refine ⟨_, rfl, ?_⟩
  simp [Slice.len, List.length_pos]

/-- C3: when the length field of the first pending record is smaller than the
header size 19 or larger than the pending region, `Next` returns no entry.
With no deferred fault it stops in a runtime panic, raised by the bounds
checks of the two slice expressions that come before the name bytes are
searched; whatever `Next` returns in such a state is the zero entry together
with a non-zero fault, never an entry built from the record. -/
theorem C3_malformed_record_rejected (E : Env) (ds : loopbackDirStream) (os : OS)
    (h : recordLength E ds.todo.elems < nameOffset ∨
      ds.todo.elems.length < recordLength E ds.todo.elems) :
    (ds.todoErrno = 0 → Next E ds os = .panic) ∧
      (∀ e errno ds1 os1, Next E ds os = .ok (e, errno, ds1) os1 →
        e = DirEntry.zero ∧ errno ≠ 0) := by
  refine ⟨fun h0 => Next_malformed E ds os h0 h, ?_⟩
  intro e errno ds1 os1 hN
  by_cases h0 : ds.todoErrno = 0
  · rw [Next_malformed E ds os h0 h] at hN
    cases hN
  · rw [Next_fault E ds os h0] at hN
    cases hN
    exact ⟨rfl, h0⟩

/-- Witness for C3: a 24-byte pending region whose length field says 30. -/
theorem C3_malformed_record_rejected_witness :
    (recordLength sampleEnv (sampleStream recLong 0).todo.elems < nameOffset ∨
      (sampleStream recLong 0).todo.elems.length
        < recordLength sampleEnv (sampleStream recLong 0).todo.elems) ∧
    ((sampleStream recLong 0).todoErrno = 0 →
      Next sampleEnv (sampleStream recLong 0) sampleOS = .panic) ∧
      (∀ e errno ds1 os1,
        Next sampleEnv (sampleStream recLong 0) sampleOS = .ok (e, errno, ds1) os1 →
        e = DirEntry.zero ∧ errno ≠ 0) :=
  ⟨by decide, C3_malformed_record_rejected sampleEnv (sampleStream recLong 0) sampleOS
    (by decide)⟩

/-- C4: with a non-zero deferred fault `Next` returns the zero entry and
exactly that fault, asks the operating system nothing and leaves the stream
(pending region, fault, descriptor) as it was; so `n` calls in a row all
return that fault and `HasNext` answers true after each of them. -/
theorem C4_fault_repeats (E : Env) (ds : loopbackDirStream) (os : OS)
    (h : ds.todoErrno ≠ 0) :
    Next E ds os = .ok (DirEntry.zero, ds.todoErrno, ds) os ∧
      ∀ n, NextTimes E n ds os
        = .ok (List.replicate n (DirEntry.zero, ds.todoErrno, true), ds) os := by
  refine ⟨Next_fault E ds os h, ?_⟩
  intro n
  induction n with
  | zero => rfl
  | succ n ih =>
    simp only [NextTimes, Next_fault E ds os h, HasNext, ih, List.replicate_succ]
    simp [h]

/-- Witness for C4: fault 5 stored next to a pending record. -/
theorem C4_fault_repeats_witness :
    (sampleStream recA 5).todoErrno ≠ 0 ∧
    (Next sampleEnv (sampleStream recA 5) sampleOS
        = .ok (DirEntry.zero, (sampleStream recA 5).todoErrno, sampleStream recA 5) sampleOS ∧
      ∀ n, NextTimes sampleEnv n (sampleStream recA 5) sampleOS
        = .ok (List.replicate n (DirEntry.zero, (sampleStream recA 5).todoErrno, true),
            sampleStream recA 5) sampleOS) :=
  ⟨by decide, C4_fault_repeats sampleEnv (sampleStream recA 5) sampleOS (by decide)⟩

/-- C5: with no deferred fault and a well-formed first record, `Next` returns
status 0 and a name that is the name region (the pending bytes in
`[19, recordLength)`) cut at its first zero byte, or the whole name region
when it holds no zero byte.  The name holds no zero byte and is at most
`recordLength - 19` bytes long. -/
theorem C5_name_extraction (E : Env) (ds : loopbackDirStream) (os : OS)
    (h0 : ds.todoErrno = 0) (hw : WellFormedFirst E ds.todo.elems) :
    ∃ e ds1 os1, Next E ds os = .ok (e, 0, ds1) os1 ∧
      e.Name = (nameRegion E ds.todo.elems).takeWhile (fun b => b ≠ 0) ∧
      (∀ pre post, nameRegion E ds.todo.elems = pre ++ 0 :: post → (0 : Byte) ∉ pre →
        e.Name = pre) ∧
      ((0 : Byte) ∉ nameRegion E ds.todo.elems → e.Name = nameRegion E ds.todo.elems) ∧
      (0 : Byte) ∉ e.Name ∧
      e.Name.length ≤ recordLength E ds.todo.elems - nameOffset := by
  obtain ⟨ds1, os1, hN⟩ := Next_returns E ds os h0 hw
  refine ⟨_, ds1, os1, hN, rfl, ?_, ?_, ?_, ?_⟩
  · intro pre post hr hz
    simp only [decodeRecord, hr]
    exact takeWhile_stops pre post hz
  · intro hz
    exact takeWhile_eq_self_of_not_mem _ _ hz
  · intro hm
    have := List.mem_takeWhile_imp hm
    simp at this
  · rw [← nameRegion_length E _ hw.2]
    exact (List.takeWhile_sublist _).length_le

/-- Witness for C5: the record "a", whose name region is `a` followed by four
zero bytes. -/
theorem C5_name_extraction_witness :
    (sampleStream (recA ++ recB) 0).todoErrno = 0 ∧
    WellFormedFirst sampleEnv (sampleStream (recA ++ recB) 0).todo.elems ∧
    ∃ e ds1 os1, Next sampleEnv (sampleStream (recA ++ recB) 0) sampleOS = .ok (e, 0, ds1) os1 ∧
      e.Name = (nameRegion sampleEnv (sampleStream (recA ++ recB) 0).todo.elems).takeWhile
        (fun b => b ≠ 0) ∧
      (∀ pre post, nameRegion sampleEnv (sampleStream (recA ++ recB) 0).todo.elems
          = pre ++ 0 :: post → (0 : Byte) ∉ pre → e.Name = pre) ∧
      ((0 : Byte) ∉ nameRegion sampleEnv (sampleStream (recA ++ recB) 0).todo.elems →
        e.Name = nameRegion sampleEnv (sampleStream (recA ++ recB) 0).todo.elems) ∧
      (0 : Byte) ∉ e.Name ∧
      e.Name.length
        ≤ recordLength sampleEnv (sampleStream (recA ++ recB) 0).todo.elems - nameOffset :=
  ⟨by decide, by decide,
    C5_name_extraction sampleEnv (sampleStream (recA ++ recB) 0) sampleOS (by decide)
      (by decide)⟩

/-- C6: the entry depends on no byte behind the declared record length.  Two
streams without deferred fault whose pending regions agree on the first
`recordLength` bytes, the first of them starting with a well-formed record
(the second then does so too, with the same length), get the same entry from
`Next`, whatever follows the record and whether or not the name region holds
a zero byte. -/
theorem C6_no_read_past_record (E : Env) (ds ds' : loopbackDirStream) (os os' : OS)
    (h0 : ds.todoErrno = 0) (h0' : ds'.todoErrno = 0)
    (hw : WellFormedFirst E ds.todo.elems)
    (hagree : ds.todo.elems.take (recordLength E ds.todo.elems)
      = ds'.todo.elems.take (recordLength E ds.todo.elems)) :
    WellFormedFirst E ds'.todo.elems ∧
      recordLength E ds'.todo.elems = recordLength E ds.todo.elems ∧
      ∃ e ds1 os1 ds1' os1', Next E ds os = .ok (e, 0, ds1) os1 ∧
        Next E ds' os' = .ok (e, 0, ds1') os1' := by
  obtain ⟨hw', hr, hd⟩ := decodeRecord_congr E _ _ hw hagree
  obtain ⟨ds1, os1, hN⟩ := Next_returns E ds os h0 hw
  obtain ⟨ds1', os1', hN'⟩ := Next_returns E ds' os' h0' hw'
  exact ⟨hw', hr, _, ds1, os1, ds1', os1', hN, by rw [hd]; exact hN'⟩

/-- Witness for C6: the record "bcdef", whose name region has no zero byte,
once at the end of the pending region and once followed by another record. -/
theorem C6_no_read_past_record_witness :
    (sampleStream recB 0).todoErrno = 0 ∧ (sampleStream (recB ++ recA) 0).todoErrno = 0 ∧
    WellFormedFirst sampleEnv (sampleStream recB 0).todo.elems ∧
    (sampleStream recB 0).todo.elems.take
        (recordLength sampleEnv (sampleStream recB 0).todo.elems)
      = (sampleStream (recB ++ recA) 0).todo.elems.take
        (recordLength sampleEnv (sampleStream recB 0).todo.elems) ∧
    (WellFormedFirst sampleEnv (sampleStream (recB ++ recA) 0).todo.elems ∧
      recordLength sampleEnv (sampleStream (recB ++ recA) 0).todo.elems
        = recordLength sampleEnv (sampleStream recB 0).todo.elems ∧
      ∃ e ds1 os1 ds1' os1', Next sampleEnv (sampleStream recB 0) sampleOS = .ok (e, 0, ds1) os1 ∧
        Next sampleEnv (sampleStream (recB ++ recA) 0) sampleOS = .ok (e, 0, ds1') os1') :=
  ⟨by decide, by decide, by decide, by decide,
    C6_no_read_past_record sampleEnv (sampleStream recB 0) (sampleStream (recB ++ recA) 0)
      sampleOS sampleOS (by decide) (by decide) (by decide) (by decide)⟩

/-- C7: for a well-formed first record `Next` returns, with the deferred fault
as status; when that status is 0, so that an entry is returned, its `Mode` is
the type byte at offset 18 shifted left by 12 bits as a `uint32`, which is
`type * 4096` without wrap-around, below `2 ^ 32` and with its low 12 bits
zero. -/
theorem C7_mode_is_type_shifted (E : Env) (ds : loopbackDirStream) (os : OS)
    (hw : WellFormedFirst E ds.todo.elems) :
    ∃ e errno ds1 os1, Next E ds os = .ok (e, errno, ds1) os1 ∧ errno = ds.todoErrno ∧
      (errno = 0 →
        e.Mode = ((ds.todo.elems.getD 18 0).val <<< 12) % 2 ^ 32 ∧
        e.Mode = (ds.todo.elems.getD 18 0).val * 4096 ∧
        e.Mode < 2 ^ 32 ∧ e.Mode % 4096 = 0 ∧
        e.Mode / 4096 = (ds.todo.elems.getD 18 0).val) := by
  by_cases h0 : ds.todoErrno = 0
  · obtain ⟨ds1, os1, hN⟩ := Next_returns E ds os h0 hw
    refine ⟨_, 0, ds1, os1, hN, h0.symm, fun _ => ?_⟩
    have hb := (ds.todo.elems.getD 18 0).isLt
    simp only [decodeRecord, Nat.shiftLeft_eq]
    norm_num
    omega
  · exact ⟨_, _, _, _, Next_fault E ds os h0, rfl, fun h => absurd h h0⟩

/-- Witness for C7: the record "a" of type 8. -/
theorem C7_mode_is_type_shifted_witness :
    WellFormedFirst sampleEnv (sampleStream recA 0).todo.elems ∧
    ∃ e errno ds1 os1, Next sampleEnv (sampleStream recA 0) sampleOS = .ok (e, errno, ds1) os1 ∧
      errno = (sampleStream recA 0).todoErrno ∧
      (errno = 0 →
        e.Mode = (((sampleStream recA 0).todo.elems.getD 18 0).val <<< 12) % 2 ^ 32 ∧
        e.Mode = ((sampleStream recA 0).todo.elems.getD 18 0).val * 4096 ∧
        e.Mode < 2 ^ 32 ∧ e.Mode % 4096 = 0 ∧
        e.Mode / 4096 = ((sampleStream recA 0).todo.elems.getD 18 0).val) :=
  ⟨by decide, C7_mode_is_type_shifted sampleEnv (sampleStream recA 0) sampleOS (by decide)⟩

/-- C8: for a well-formed first record `Next` returns, with the deferred fault
as status; when that status is 0 the entry carries the inode, the unsigned
64-bit field at offset 0, unchanged, and as `Off` the 64-bit pattern of the
signed cursor offset at offset 8: the signed offset modulo `2 ^ 64`, hence
the offset itself when it is not negative. -/
theorem C8_inode_and_offset_pass_through (E : Env) (ds : loopbackDirStream) (os : OS)
    (hw : WellFormedFirst E ds.todo.elems) :
    ∃ e errno ds1 os1, Next E ds os = .ok (e, errno, ds1) os1 ∧ errno = ds.todoErrno ∧
      (errno = 0 →
        e.Ino = readUint E (ds.todo.elems.take 8) ∧ e.Ino < 2 ^ 64 ∧
        e.Off = readUint E ((ds.todo.elems.drop 8).take 8) ∧ e.Off < 2 ^ 64 ∧
        (e.Off : Int) = toInt64 (readUint E ((ds.todo.elems.drop 8).take 8)) % 2 ^ 64 ∧
        (0 ≤ toInt64 (readUint E ((ds.todo.elems.drop 8).take 8)) →
          (e.Off : Int) = toInt64 (readUint E ((ds.todo.elems.drop 8).take 8)))) := by
  by_cases h0 : ds.todoErrno = 0
  · obtain ⟨ds1, os1, hN⟩ := Next_returns E ds os h0 hw
    refine ⟨_, 0, ds1, os1, hN, h0.symm, fun _ => ?_⟩
    have h19 : 19 ≤ ds.todo.elems.length := by
      have := hw.1
      have := hw.2
      simp only [nameOffset] at *
      omega
    have hI := readUint_lt E (ds.todo.elems.take 8)
    have hO := readUint_lt E ((ds.todo.elems.drop 8).take 8)
    have l1 : (ds.todo.elems.take 8).length = 8 := by
      simp only [List.length_take]; omega
    have l2 : ((ds.todo.elems.drop 8).take 8).length = 8 := by
      simp only [List.length_take, List.length_drop]; omega
    rw [l1] at hI
    rw [l2] at hO
    simp only [decodeRecord]
    generalize readUint E ((ds.todo.elems.drop 8).take 8) = u at hO ⊢
    generalize readUint E (ds.todo.elems.take 8) = v at hI ⊢
    unfold toInt64
    norm_num at hI hO ⊢
    refine ⟨hI, hO, ?_, ?_⟩
    · split <;> omega
    · split <;> omega
  · exact ⟨_, _, _, _, Next_fault E ds os h0, rfl, fun h => absurd h h0⟩

/-- Witness for C8: the record "bcdef" with inode 258 and cursor offset -1. -/
theorem C8_inode_and_offset_pass_through_witness :
    WellFormedFirst sampleEnv (sampleStream recB 0).todo.elems ∧
    ∃ e errno ds1 os1, Next sampleEnv (sampleStream recB 0) sampleOS = .ok (e, errno, ds1) os1 ∧
      errno = (sampleStream recB 0).todoErrno ∧
      (errno = 0 →
        e.Ino = readUint sampleEnv ((sampleStream recB 0).todo.elems.take 8) ∧
        e.Ino < 2 ^ 64 ∧
        e.Off = readUint sampleEnv (((sampleStream recB 0).todo.elems.drop 8).take 8) ∧
        e.Off < 2 ^ 64 ∧
        (e.Off : Int)
          = toInt64 (readUint sampleEnv (((sampleStream recB 0).todo.elems.drop 8).take 8))
            % 2 ^ 64 ∧
        (0 ≤ toInt64 (readUint sampleEnv (((sampleStream recB 0).todo.elems.drop 8).take 8)) →
          (e.Off : Int)
            = toInt64 (readUint sampleEnv (((sampleStream recB 0).todo.elems.drop 8).take 8)))) :=
  ⟨by decide,
    C8_inode_and_offset_pass_through sampleEnv (sampleStream recB 0) sampleOS (by decide)⟩

/-- C9: with no deferred fault and a well-formed first record of length `r`,
`Next` returns the decoded record and moves the cursor by exactly `r`.  When
more than `r` bytes are pending, the new pending region is the old one
without its first `r` bytes, nothing else changes and the operating system
is not asked.  When exactly `r` bytes are pending, one `getdents` on the
stream's descriptor and buffer is issued and the pending region and the
fault are set from its answer. -/
theorem C9_next_advances_by_record_length (E : Env) (ds : loopbackDirStream) (os : OS)
    (h0 : ds.todoErrno = 0) (hw : WellFormedFirst E ds.todo.elems) :
    (recordLength E ds.todo.elems < ds.todo.elems.length →
      Next E ds os = .ok (decodeRecord E ds.todo.elems, 0,
        ⟨ds.buf, ⟨ds.todo.elems.drop (recordLength E ds.todo.elems), ds.todo.spare⟩,
          ds.todoErrno, ds.fd⟩) os) ∧
    (recordLength E ds.todo.elems = ds.todo.elems.length →
      ∃ ds1 os1, Next E ds os = .ok (decodeRecord E ds.todo.elems, 0, ds1) os1 ∧
        os1.reads = os.reads ++ [(ds.fd, ds.buf.length)] ∧
        os1.script = os.script.tail ∧ os1.closes = os.closes ∧
        ds1.buf = (Getdents os ds.fd ds.buf).2.2.1 ∧
        ds1.todo.elems
          = (Getdents os ds.fd ds.buf).2.2.1.take (max (Getdents os ds.fd ds.buf).1 0).toNat ∧
        ds1.todoErrno = E.ToErrno (Getdents os ds.fd ds.buf).2.1 ∧
        ds1.fd = ds.fd) := by
  constructor
  · intro hm
    exact Next_wellFormed_more E ds os h0 hw hm
  · intro hm
    exact ⟨_, _, Next_wellFormed_last E ds os h0 hw hm, rfl, rfl, rfl, rfl, rfl, rfl, rfl⟩

/-- Witness for C9: the last pending record, followed by a failing refill. -/
theorem C9_next_advances_by_record_length_witness :
    (sampleStream recB 0).todoErrno = 0 ∧
    WellFormedFirst sampleEnv (sampleStream recB 0).todo.elems ∧
    (recordLength sampleEnv (sampleStream recB 0).todo.elems
        < (sampleStream recB 0).todo.elems.length →
      Next sampleEnv (sampleStream recB 0) sampleOS
        = .ok (decodeRecord sampleEnv (sampleStream recB 0).todo.elems, 0,
        ⟨(sampleStream recB 0).buf,
          ⟨(sampleStream recB 0).todo.elems.drop
            (recordLength sampleEnv (sampleStream recB 0).todo.elems),
            (sampleStream recB 0).todo.spare⟩,
          (sampleStream recB 0).todoErrno, (sampleStream recB 0).fd⟩) sampleOS) ∧
    (recordLength sampleEnv (sampleStream recB 0).todo.elems
        = (sampleStream recB 0).todo.elems.length →
      ∃ ds1 os1, Next sampleEnv (sampleStream recB 0) sampleOS
          = .ok (decodeRecord sampleEnv (sampleStream recB 0).todo.elems, 0, ds1) os1 ∧
        os1.reads = sampleOS.reads
          ++ [((sampleStream recB 0).fd, (sampleStream recB 0).buf.length)] ∧
        os1.script = sampleOS.script.tail ∧ os1.closes = sampleOS.closes ∧
        ds1.buf = (Getdents sampleOS (sampleStream recB 0).fd (sampleStream recB 0).buf).2.2.1 ∧
        ds1.todo.elems
          = (Getdents sampleOS (sampleStream recB 0).fd (sampleStream recB 0).buf).2.2.1.take
            (max (Getdents sampleOS (sampleStream recB 0).fd (sampleStream recB 0).buf).1
              0).toNat ∧
        ds1.todoErrno
          = sampleEnv.ToErrno
            (Getdents sampleOS (sampleStream recB 0).fd (sampleStream recB 0).buf).2.1 ∧
        ds1.fd = (sampleStream recB 0).fd) :=
  ⟨by decide, by decide,
    C9_next_advances_by_record_length sampleEnv (sampleStream recB 0) sampleOS (by decide)
      (by decide)⟩

/-- C10: a refill with an empty pending region, whose `getdents` answers
count `n` and error `err`, leaves as pending region the first `max n 0` bytes
of the buffer and stores the translation of `err` as deferred fault.  `load`
itself reports nothing; a non-zero fault is what the next `Next` returns. -/
theorem C10_refill_sets_pending_and_fault (E : Env) (ds : loopbackDirStream) (os : OS)
    (h : ds.todo.elems = []) :
    ∃ ds1 os1, load E ds os = .ok ds1 os1 ∧
      os1 = (Getdents os ds.fd ds.buf).2.2.2 ∧
      ds1.buf = (Getdents os ds.fd ds.buf).2.2.1 ∧
      ds1.todo.elems
        = (Getdents os ds.fd ds.buf).2.2.1.take (max (Getdents os ds.fd ds.buf).1 0).toNat ∧
      ((Getdents os ds.fd ds.buf).1 < 0 → ds1.todo.elems = []) ∧
      ds1.todoErrno = E.ToErrno (Getdents os ds.fd ds.buf).2.1 ∧
      ds1.fd = ds.fd ∧
      (E.ToErrno (Getdents os ds.fd ds.buf).2.1 ≠ 0 →
        Next E ds1 os1
          = .ok (DirEntry.zero, E.ToErrno (Getdents os ds.fd ds.buf).2.1, ds1) os1) := by
  refine ⟨_, _, load_empty E ds os h, rfl, rfl, rfl, ?_, rfl, rfl, ?_⟩
  · intro hn
    have : (max (Getdents os ds.fd ds.buf).1 0).toNat = 0 := by omega
    simp only [refilled, this, List.take_zero]
  · intro hne
    exact Next_fault E (refilled E ds os) _ hne

/-- Witness for C10: an empty pending region and a `getdents` that answers
`-1` with error code 5. -/
theorem C10_refill_sets_pending_and_fault_witness :
    (sampleStream [] 0).todo.elems = [] ∧
    ∃ ds1 os1, load sampleEnv (sampleStream [] 0) sampleOS = .ok ds1 os1 ∧
      os1 = (Getdents sampleOS (sampleStream [] 0).fd (sampleStream [] 0).buf).2.2.2 ∧
      ds1.buf = (Getdents sampleOS (sampleStream [] 0).fd (sampleStream [] 0).buf).2.2.1 ∧
      ds1.todo.elems
        = (Getdents sampleOS (sampleStream [] 0).fd (sampleStream [] 0).buf).2.2.1.take
          (max (Getdents sampleOS (sampleStream [] 0).fd (sampleStream [] 0).buf).1 0).toNat ∧
      ((Getdents sampleOS (sampleStream [] 0).fd (sampleStream [] 0).buf).1 < 0 →
        ds1.todo.elems = []) ∧
      ds1.todoErrno
        = sampleEnv.ToErrno
          (Getdents sampleOS (sampleStream [] 0).fd (sampleStream [] 0).buf).2.1 ∧
      ds1.fd = (sampleStream [] 0).fd ∧
      (sampleEnv.ToErrno (Getdents sampleOS (sampleStream [] 0).fd (sampleStream [] 0).buf).2.1
          ≠ 0 →
        Next sampleEnv ds1 os1
          = .ok (DirEntry.zero,
              sampleEnv.ToErrno
                (Getdents sampleOS (sampleStream [] 0).fd (sampleStream [] 0).buf).2.1, ds1)
            os1) :=
  ⟨by decide, C10_refill_sets_pending_and_fault sampleEnv (sampleStream [] 0) sampleOS
    (by decide)⟩

/-- C11: a refill happens exactly when the pending region is empty.  With a
non-empty pending region `load` asks the operating system nothing and leaves
the stream (pending region, fault, descriptor, buffer) as it was; with an
empty pending region `load` issues exactly one `getdents`, on the stream's
descriptor and buffer. -/
theorem C11_refill_only_when_pending_empty (E : Env) (ds : loopbackDirStream) (os : OS) :
    (ds.todo.elems ≠ [] → load E ds os = .ok ds os) ∧
    (ds.todo.elems = [] →
      ∃ ds1 os1, load E ds os = .ok ds1 os1 ∧
        os1.reads = os.reads ++ [(ds.fd, ds.buf.length)] ∧
        os1.script = os.script.tail ∧ os1.closes = os.closes ∧ ds1.fd = ds.fd) := by
  constructor
  · intro h
    exact load_nonempty E ds os h
  · intro h
    exact ⟨_, _, load_empty E ds os h, rfl, rfl, rfl, rfl⟩

/-- C12, counterexample: a stream with one pending record is closed; the
following `Next` returns that record and issues a `getdents`, with the
sentinel -1 as descriptor. -/
theorem C12_read_after_close_counterexample :
    ∃ dc oc e ds1 os1, Close (sampleStream recB 0) sampleOS = .ok dc oc ∧ dc.fd = -1 ∧
      oc.reads = [] ∧ Next sampleEnv dc oc = .ok (e, 0, ds1) os1 ∧
      os1.reads = [(-1, 48)] := by
  refine ⟨⟨recA ++ recB, ⟨recB, []⟩, 0, -1⟩, ⟨[⟨-1, some 5, []⟩], [], [3]⟩,
    ⟨258, 16384, [98, 99, 100, 101, 102], 2 ^ 64 - 1⟩,
    ⟨recA ++ recB, ⟨[], recA ++ recB⟩, 5, -1⟩, ⟨[], [(-1, 48)], [3]⟩, ?_, rfl, rfl, ?_, rfl⟩
  · decide
  · decide

/-- C12, amended: `Close` leaves the sentinel -1 as descriptor and reads
nothing.  In every state whose descriptor is the sentinel, `HasNext` and
`Close` ask the operating system nothing, and `Next` either panics or returns
with the descriptor still the sentinel, nothing closed, and either no
`getdents` or exactly one, on the sentinel, the latter only when it consumes
the last pending record.  So in every run of methods after `Close` all
`getdents` calls carry the sentinel, never the released descriptor. -/
theorem C12_after_close_reads_only_on_sentinel (E : Env) (ds : loopbackDirStream) (os : OS) :
    ∃ dc oc, Close ds os = .ok dc oc ∧ dc.fd = -1 ∧ oc.reads = os.reads ∧
      (∀ (d : loopbackDirStream) (o : OS), d.fd = -1 →
        (∃ b, HasNext d o = .ok (b, d) o) ∧
        Close d o = .ok d o ∧
        (Next E d o = .panic ∨
          ∃ e errno d1 o1, Next E d o = .ok (e, errno, d1) o1 ∧ d1.fd = -1 ∧
            o1.closes = o.closes ∧
            (o1.reads = o.reads ∨
              (o1.reads = o.reads ++ [(-1, d.buf.length)] ∧ d.todoErrno = 0 ∧
                WellFormedFirst E d.todo.elems ∧
                recordLength E d.todo.elems = d.todo.elems.length)))) ∧
      (∀ (ops : List Op) (d1 : loopbackDirStream) (o1 : OS),
        runOps E ops dc oc = .ok d1 o1 →
        d1.fd = -1 ∧ o1.closes = oc.closes ∧
          ∃ extra, o1.reads = oc.reads ++ extra ∧ ∀ x ∈ extra, x.1 = -1) := by
  have hsingle : ∀ (d : loopbackDirStream) (o : OS), d.fd = -1 →
      (∃ b, HasNext d o = .ok (b, d) o) ∧ Close d o = .ok d o ∧
      (Next E d o = .panic ∨
        ∃ e errno d1 o1, Next E d o = .ok (e, errno, d1) o1 ∧ d1.fd = -1 ∧
          o1.closes = o.closes ∧
          (o1.reads = o.reads ∨
            (o1.reads = o.reads ++ [(-1, d.buf.length)] ∧ d.todoErrno = 0 ∧
              WellFormedFirst E d.todo.elems ∧
              recordLength E d.todo.elems = d.todo.elems.length))) :=
    fun d o hfd => ⟨⟨_, rfl⟩, Close_closed d o hfd, Next_closed E d o hfd⟩
  by_cases h : ds.fd = -1
  · exact ⟨ds, os, Close_closed ds os h, h, rfl, hsingle,
      fun ops d1 o1 hr => runOps_closed E ops ds d1 os o1 h hr⟩
  · exact ⟨_, _, Close_open ds os h, rfl, rfl, hsingle,
      fun ops d1 o1 hr => runOps_closed E ops _ d1 _ o1 rfl hr⟩

/-- C13: `Close` always returns, leaving the sentinel -1 as descriptor and the
rest of the stream and the `getdents` side of the operating system as they
were.  When the descriptor was not the sentinel exactly one `close`, of that
descriptor, is issued; when it was the sentinel nothing is issued and nothing
changes.  A second `Close` changes nothing, and `n + 1` calls in a row end in
the same stream and the same operating system as a single call: one `close`
in all for an open stream. -/
theorem C13_close_idempotent (ds : loopbackDirStream) (os : OS) :
    ∃ dc oc, Close ds os = .ok dc oc ∧ dc.fd = -1 ∧
      (ds.fd ≠ -1 → oc.closes = os.closes ++ [ds.fd]) ∧
      (ds.fd = -1 → dc = ds ∧ oc = os) ∧
      Close dc oc = .ok dc oc ∧
      (∀ n, CloseTimes (n + 1) ds os = .ok dc oc) ∧
      (∀ n, ds.fd ≠ -1 → ∃ dn osn, CloseTimes (n + 1) ds os = .ok dn osn ∧
        osn.closes = os.closes ++ [ds.fd]) := by
  by_cases h : ds.fd = -1
  · refine ⟨ds, os, Close_closed ds os h, h, fun hn => absurd h hn, fun _ => ⟨rfl, rfl⟩,
      Close_closed ds os h, fun n => CloseTimes_closed (n + 1) ds os h,
      fun n hn => absurd h hn⟩
  · have hn : ∀ n, CloseTimes (n + 1) ds os = .ok ⟨ds.buf, ds.todo, ds.todoErrno, -1⟩
        ⟨os.script, os.reads, os.closes ++ [ds.fd]⟩ := by
      intro n
      simp only [CloseTimes, Close_open ds os h]
      exact CloseTimes_closed n _ _ rfl
    exact ⟨_, _, Close_open ds os h, rfl, fun _ => rfl, fun hc => absurd hc h,
      Close_closed _ _ rfl, hn, fun n _ => ⟨_, _, hn n, rfl⟩⟩

/-- C14: when `syscall.Open` fails, `NewLoopbackDirStream` returns no stream
and the translation of the error, and the operating system is as before: no
`getdents`, nothing to close.  The translation is not OK provided the
translator, which is not part of these sources, maps that error to a non-zero
code.  When `syscall.Open` gives descriptor `fd`, it returns status 0 and the
stream left by one refill of a fresh stream on `fd`: one `getdents` on `fd`
with a 4096-byte buffer, whose answer fixes the pending region and the
deferred fault; `HasNext` then answers without a further read. -/
theorem C14_open_then_one_refill (E : Env) (name : String) (os : OS)
    (hT : (E.sysOpen name).2 ≠ none → E.ToErrno (E.sysOpen name).2 ≠ 0) :
    ((E.sysOpen name).2 ≠ none →
      NewLoopbackDirStream E name os = .ok (none, E.ToErrno (E.sysOpen name).2) os ∧
        E.ToErrno (E.sysOpen name).2 ≠ 0) ∧
    ((E.sysOpen name).2 = none →
      ∃ ds os1, NewLoopbackDirStream E name os = .ok (some ds, 0) os1 ∧
        load E ⟨List.replicate 4096 0, ⟨[], []⟩, 0, (E.sysOpen name).1⟩ os = .ok ds os1 ∧
        ds.fd = (E.sysOpen name).1 ∧ ds.buf.length = 4096 ∧
        os1.reads = os.reads ++ [((E.sysOpen name).1, 4096)] ∧
        os1.script = os.script.tail ∧ os1.closes = os.closes ∧
        ds.todo.elems = ds.buf.take
          (max (Getdents os (E.sysOpen name).1 (List.replicate 4096 0)).1 0).toNat ∧
        ds.todoErrno
          = E.ToErrno (Getdents os (E.sysOpen name).1 (List.replicate 4096 0)).2.1 ∧
        ∃ b, HasNext ds os1 = .ok (b, ds) os1) := by
  generalize hopen : E.sysOpen name = r at hT
  obtain ⟨fd, err⟩ := r
  simp only at hT ⊢
  constructor
  · intro herr
    refine ⟨?_, hT herr⟩
    simp only [NewLoopbackDirStream, hopen, ne_eq, herr, not_false_eq_true, if_true]
  · intro herr
    have hl := load_empty E ⟨List.replicate 4096 0, ⟨[], []⟩, 0, fd⟩ os rfl
    refine ⟨_, _, ?_, hl, rfl, ?_, ?_, rfl, rfl, rfl, rfl, _, rfl⟩
    · simp only [NewLoopbackDirStream, hopen, herr, ne_eq, not_true_eq_false, if_false, hl]
    · simp only [refilled, Getdents_buf_length, List.length_replicate]
    · simp only [Getdents, List.length_replicate]

/-- Witness for C14: a path that does not open, its error translated to 2. -/
theorem C14_open_then_one_refill_witness :
    ((onlyDirEnv.sysOpen "x").2 ≠ none → onlyDirEnv.ToErrno (onlyDirEnv.sysOpen "x").2 ≠ 0) ∧
    (((onlyDirEnv.sysOpen "x").2 ≠ none →
      NewLoopbackDirStream onlyDirEnv "x" endOS
          = .ok (none, onlyDirEnv.ToErrno (onlyDirEnv.sysOpen "x").2) endOS ∧
        onlyDirEnv.ToErrno (onlyDirEnv.sysOpen "x").2 ≠ 0) ∧
    ((onlyDirEnv.sysOpen "x").2 = none →
      ∃ ds os1, NewLoopbackDirStream onlyDirEnv "x" endOS = .ok (some ds, 0) os1 ∧
        load onlyDirEnv ⟨List.replicate 4096 0, ⟨[], []⟩, 0, (onlyDirEnv.sysOpen "x").1⟩ endOS
          = .ok ds os1 ∧
        ds.fd = (onlyDirEnv.sysOpen "x").1 ∧ ds.buf.length = 4096 ∧
        os1.reads = endOS.reads ++ [((onlyDirEnv.sysOpen "x").1, 4096)] ∧
        os1.script = endOS.script.tail ∧ os1.closes = endOS.closes ∧
        ds.todo.elems = ds.buf.take
          (max (Getdents endOS (onlyDirEnv.sysOpen "x").1 (List.replicate 4096 0)).1 0).toNat ∧
        ds.todoErrno
          = onlyDirEnv.ToErrno
            (Getdents endOS (onlyDirEnv.sysOpen "x").1 (List.replicate 4096 0)).2.1 ∧
        ∃ b, HasNext ds os1 = .ok (b, ds) os1)) :=
  ⟨by decide, C14_open_then_one_refill onlyDirEnv "x" endOS (by decide)⟩

/-- C15: `HasNext` answers from the stream alone: it asks the operating system
nothing and leaves the stream (pending region, fault, descriptor, buffer) as
it was, so a second call right after the first gives the same answer. -/
theorem C15_hasNext_needs_no_refill (ds : loopbackDirStream) (os : OS) :
    ∃ b ds1 os1, HasNext ds os = .ok (b, ds1) os1 ∧ ds1 = ds ∧ os1 = os ∧
      HasNext ds1 os1 = .ok (b, ds1) os1 :=
  ⟨_, ds, os, rfl, rfl, rfl, rfl⟩

/-- C16: when `HasNext` answers true and the pending region, if not empty,
starts with a well-formed record, `Next` does not panic: it returns either
the decoded first record with status 0, or the zero entry with the stored
non-zero fault. -/
theorem C16_hasNext_implies_next_returns (E : Env) (ds : loopbackDirStream) (os : OS)
    (hH : HasNext ds os = .ok (true, ds) os)
    (hw : ds.todo.elems ≠ [] → WellFormedFirst E ds.todo.elems) :
    ∃ e errno ds1 os1, Next E ds os = .ok (e, errno, ds1) os1 ∧
      ((errno = 0 ∧ e = decodeRecord E ds.todo.elems) ∨
        (errno ≠ 0 ∧ errno = ds.todoErrno ∧ e = DirEntry.zero)) := by
  by_cases h0 : ds.todoErrno = 0
  · have hne : ds.todo.elems ≠ [] := by
      intro hnil
      simp [HasNext, Slice.len, hnil, h0] at hH
    obtain ⟨ds1, os1, hN⟩ := Next_returns E ds os h0 (hw hne)
    exact ⟨_, _, ds1, os1, hN, Or.inl ⟨rfl, rfl⟩⟩
  · exact ⟨_, _, _, _, Next_fault E ds os h0, Or.inr ⟨h0, rfl, rfl⟩⟩

/-- Witness for C16: one well-formed record pending, no fault. -/
theorem C16_hasNext_implies_next_returns_witness :
    HasNext (sampleStream recA 0) sampleOS = .ok (true, sampleStream recA 0) sampleOS ∧
    ((sampleStream recA 0).todo.elems ≠ [] →
      WellFormedFirst sampleEnv (sampleStream recA 0).todo.elems) ∧
    ∃ e errno ds1 os1, Next sampleEnv (sampleStream recA 0) sampleOS = .ok (e, errno, ds1) os1 ∧
      ((errno = 0 ∧ e = decodeRecord sampleEnv (sampleStream recA 0).todo.elems) ∨
        (errno ≠ 0 ∧ errno = (sampleStream recA 0).todoErrno ∧ e = DirEntry.zero)) :=
  ⟨by decide, by decide,
    C16_hasNext_implies_next_returns sampleEnv (sampleStream recA 0) sampleOS (by decide)
      (by decide)⟩

/-- C17: a refill (pending region empty) whose `getdents` answers count 0 and
no error, with `ToErrno(nil)` being 0, leaves the pending region empty and
the deferred fault clear; `HasNext` then answers false, on that call and on
every later one, and nothing else changes. -/
theorem C17_zero_read_is_end_of_directory (E : Env) (ds : loopbackDirStream) (os : OS)
    (hnil : E.ToErrno none = 0) (h : ds.todo.elems = [])
    (hn : (Getdents os ds.fd ds.buf).1 = 0) (herr : (Getdents os ds.fd ds.buf).2.1 = none) :
    ∃ ds1 os1, load E ds os = .ok ds1 os1 ∧ ds1.todo.elems = [] ∧ ds1.todoErrno = 0 ∧
      HasNext ds1 os1 = .ok (false, ds1) os1 ∧
      ∀ n, HasNextTimes n ds1 os1 = .ok (List.replicate n false, ds1) os1 := by
  have h1 : (refilled E ds os).todo.elems = [] := by
    simp only [refilled, hn, max_self, Int.toNat_zero, List.take_zero]
  have h2 : (refilled E ds os).todoErrno = 0 := by
    simp only [refilled, herr, hnil]
  refine ⟨_, _, load_empty E ds os h, h1, h2, ?_, fun n => HasNextTimes_false n _ _ h1 h2⟩
  simp [HasNext, Slice.len, h1, h2]

/-- Witness for C17: an empty pending region and an operating system at the
end of the directory. -/
theorem C17_zero_read_is_end_of_directory_witness :
    sampleEnv.ToErrno none = 0 ∧ (sampleStream [] 0).todo.elems = [] ∧
    (Getdents endOS (sampleStream [] 0).fd (sampleStream [] 0).buf).1 = 0 ∧
    (Getdents endOS (sampleStream [] 0).fd (sampleStream [] 0).buf).2.1 = none ∧
    ∃ ds1 os1, load sampleEnv (sampleStream [] 0) endOS = .ok ds1 os1 ∧
      ds1.todo.elems = [] ∧ ds1.todoErrno = 0 ∧
      HasNext ds1 os1 = .ok (false, ds1) os1 ∧
      ∀ n, HasNextTimes n ds1 os1 = .ok (List.replicate n false, ds1) os1 :=
  ⟨rfl, rfl, by decide, by decide,
    C17_zero_read_is_end_of_directory sampleEnv (sampleStream [] 0) endOS rfl rfl (by decide)
      (by decide)⟩

/-- C19: the pending region stays at a record boundary.  Let the pending
region be a concatenation of zero or more whole well-formed records and let
every coming `getdents` answer deliver nothing or such a concatenation that
fits the buffer.  Then the same holds after `load`, after `HasNext`, after
`Close` and after every `Next` that returns (`Next` returns unless the
pending region is empty with no fault stored), hence after every run of
these methods; and it holds for the stream that `NewLoopbackDirStream`
returns. -/
theorem C19_pending_stays_at_record_boundary (E : Env) (ds : loopbackDirStream) (os : OS)
    (hp : Records E ds.todo.elems) (hos : ∀ r ∈ os.script, GoodRead E ds.buf.length r) :
    (∃ ds1 os1, load E ds os = .ok ds1 os1 ∧ AtBoundary E ds1 os1) ∧
    (∃ b ds1 os1, HasNext ds os = .ok (b, ds1) os1 ∧ AtBoundary E ds1 os1) ∧
    (∃ ds1 os1, Close ds os = .ok ds1 os1 ∧ AtBoundary E ds1 os1) ∧
    ((ds.todo.elems = [] ∧ ds.todoErrno = 0 ∧ Next E ds os = .panic) ∨
      ∃ e errno ds1 os1, Next E ds os = .ok (e, errno, ds1) os1 ∧ AtBoundary E ds1 os1) ∧
    (∀ (ops : List Op) (ds1 : loopbackDirStream) (os1 : OS),
      runOps E ops ds os = .ok ds1 os1 → AtBoundary E ds1 os1) ∧
    (∀ (name : String) (ds0 : loopbackDirStream) (errno : Nat) (os1 : OS),
      (∀ r ∈ os.script, GoodRead E 4096 r) →
      NewLoopbackDirStream E name os = .ok (some ds0, errno) os1 → AtBoundary E ds0 os1) := by
  have h : AtBoundary E ds os := ⟨hp, hos⟩
  refine ⟨load_atBoundary E ds os h, ⟨_, ds, os, rfl, h⟩, Close_atBoundary E ds os h,
    Next_atBoundary E ds os h, fun ops ds1 os1 hr => runOps_atBoundary E ops ds ds1 os os1 h hr,
    ?_⟩
  intro name ds0 errno os1 hos0 hnew
  have hfresh : AtBoundary E ⟨List.replicate 4096 0, ⟨[], []⟩, 0, (E.sysOpen name).1⟩ os :=
    ⟨Records_nil E, by
      intro r hr
      simp only [List.length_replicate]
      exact hos0 r hr⟩
  obtain ⟨d, o, hl, hb⟩ := load_atBoundary E _ os hfresh
  generalize hopen : E.sysOpen name = r at hl hnew
  obtain ⟨fd, err⟩ := r
  by_cases herr : err = none
  · simp only [NewLoopbackDirStream, hopen, herr, ne_eq, not_true_eq_false, if_false] at hnew
    simp only at hl
    rw [hl] at hnew
    simp only [Run.ok.injEq, Prod.mk.injEq, Option.some.injEq] at hnew
    obtain ⟨⟨h1, _⟩, h2⟩ := hnew
    subst h1 h2
    exact hb
  · simp [NewLoopbackDirStream, hopen, herr] at hnew

/-- Witness for C19: the records "a" and "bcdef" pending, and an operating
system whose only coming answer is a failure that delivers nothing. -/
theorem C19_pending_stays_at_record_boundary_witness :
    Records sampleEnv (sampleStream (recA ++ recB) 0).todo.elems ∧
    (∀ r ∈ sampleOS.script, GoodRead sampleEnv (sampleStream (recA ++ recB) 0).buf.length r) ∧
    ((∃ ds1 os1, load sampleEnv (sampleStream (recA ++ recB) 0) sampleOS = .ok ds1 os1 ∧
        AtBoundary sampleEnv ds1 os1) ∧
    (∃ b ds1 os1, HasNext (sampleStream (recA ++ recB) 0) sampleOS = .ok (b, ds1) os1 ∧
        AtBoundary sampleEnv ds1 os1) ∧
    (∃ ds1 os1, Close (sampleStream (recA ++ recB) 0) sampleOS = .ok ds1 os1 ∧
        AtBoundary sampleEnv ds1 os1) ∧
    (((sampleStream (recA ++ recB) 0).todo.elems = [] ∧
        (sampleStream (recA ++ recB) 0).todoErrno = 0 ∧
        Next sampleEnv (sampleStream (recA ++ recB) 0) sampleOS = .panic) ∨
      ∃ e errno ds1 os1,
        Next sampleEnv (sampleStream (recA ++ recB) 0) sampleOS = .ok (e, errno, ds1) os1 ∧
        AtBoundary sampleEnv ds1 os1) ∧
    (∀ (ops : List Op) (ds1 : loopbackDirStream) (os1 : OS),
      runOps sampleEnv ops (sampleStream (recA ++ recB) 0) sampleOS = .ok ds1 os1 →
      AtBoundary sampleEnv ds1 os1) ∧
    (∀ (name : String) (ds0 : loopbackDirStream) (errno : Nat) (os1 : OS),
      (∀ r ∈ sampleOS.script, GoodRead sampleEnv 4096 r) →
      NewLoopbackDirStream sampleEnv name sampleOS = .ok (some ds0, errno) os1 →
      AtBoundary sampleEnv ds0 os1)) :=
  ⟨⟨[recA, recB], by decide, rfl⟩, by
      intro r hr
      simp only [sampleOS, List.mem_singleton] at hr
      subst hr
      exact Or.inl (by decide),
    C19_pending_stays_at_record_boundary sampleEnv (sampleStream (recA ++ recB) 0) sampleOS
      ⟨[recA, recB], by decide, rfl⟩ (by
        intro r hr
        simp only [sampleOS, List.mem_singleton] at hr
        subst hr
        exact Or.inl (by decide))⟩

/-- C20: `Close` changes the descriptor only: buffer, pending region and
deferred fault stay as they were and no `getdents` is issued.  So `HasNext`
gives the same answer right before and right after `Close`.  The buffered
records stay decodable after `Close`, whatever the operating system answers
from then on: a pending well-formed record (no fault stored) is returned by
`Next` after `Close` with status 0, the same entry as `Next` returns before
`Close`; while further bytes are pending the cursor just moves past the
record and the operating system is not asked; and when the pending region is
a concatenation of whole well-formed records, as many `Next` calls as there
are records return their entries in order, each with status 0.  What the
refill after the last buffered record leaves pending is up to the operating
system's answer for the sentinel and is not part of the statement. -/
theorem C20_close_changes_only_the_handle (E : Env) (ds : loopbackDirStream) (os : OS) :
    ∃ dc oc, Close ds os = .ok dc oc ∧
      dc.buf = ds.buf ∧ dc.todo = ds.todo ∧ dc.todoErrno = ds.todoErrno ∧
      oc.reads = os.reads ∧ oc.script = os.script ∧
      (∃ b, HasNext ds os = .ok (b, ds) os ∧ HasNext dc oc = .ok (b, dc) oc) ∧
      (ds.todoErrno = 0 → WellFormedFirst E ds.todo.elems →
        (∃ ds1 os1, Next E ds os = .ok (decodeRecord E ds.todo.elems, 0, ds1) os1) ∧
        ∀ o : OS, ∃ dc1 o1,
          Next E dc o = .ok (decodeRecord E ds.todo.elems, 0, dc1) o1 ∧
          (recordLength E ds.todo.elems < ds.todo.elems.length →
            dc1.todo = ⟨ds.todo.elems.drop (recordLength E ds.todo.elems), ds.todo.spare⟩ ∧
            dc1.todoErrno = 0 ∧ dc1.buf = ds.buf ∧ o1 = o)) ∧
      (∀ rs : List (List Byte), (∀ r ∈ rs, WellFormedRecord E r) →
        ds.todo.elems = rs.flatten → ds.todoErrno = 0 →
        ∀ o : OS, ∃ l dN oN, NextTimes E rs.length dc o = .ok (l, dN) oN ∧
          l.map (fun x => (x.1, x.2.1)) = rs.map (fun r => (decodeRecord E r, 0))) := by
  have key : ∀ (dc : loopbackDirStream) (oc : OS), dc.buf = ds.buf → dc.todo = ds.todo →
      dc.todoErrno = ds.todoErrno →
      ((∃ b, HasNext ds os = .ok (b, ds) os ∧ HasNext dc oc = .ok (b, dc) oc) ∧
      (ds.todoErrno = 0 → WellFormedFirst E ds.todo.elems →
        (∃ ds1 os1, Next E ds os = .ok (decodeRecord E ds.todo.elems, 0, ds1) os1) ∧
        ∀ o : OS, ∃ dc1 o1,
          Next E dc o = .ok (decodeRecord E ds.todo.elems, 0, dc1) o1 ∧
          (recordLength E ds.todo.elems < ds.todo.elems.length →
            dc1.todo = ⟨ds.todo.elems.drop (recordLength E ds.todo.elems), ds.todo.spare⟩ ∧
            dc1.todoErrno = 0 ∧ dc1.buf = ds.buf ∧ o1 = o)) ∧
      (∀ rs : List (List Byte), (∀ r ∈ rs, WellFormedRecord E r) →
        ds.todo.elems = rs.flatten → ds.todoErrno = 0 →
        ∀ o : OS, ∃ l dN oN, NextTimes E rs.length dc o = .ok (l, dN) oN ∧
          l.map (fun x => (x.1, x.2.1)) = rs.map (fun r => (decodeRecord E r, 0)))) := by
    intro dc oc hb ht he
    refine ⟨⟨_, rfl, by simp only [HasNext, ht, he]⟩, ?_, ?_⟩
    · intro h0 hw
      have h0c : dc.todoErrno = 0 := by rw [he, h0]
      have hwc : WellFormedFirst E dc.todo.elems := by rw [ht]; exact hw
      refine ⟨Next_returns E ds os h0 hw, fun o => ?_⟩
      rcases Nat.lt_or_ge (recordLength E ds.todo.elems) ds.todo.elems.length with hm | hm
      · have hc := Next_wellFormed_more E dc o h0c hwc (by rw [ht]; exact hm)
        rw [ht] at hc
        exact ⟨_, _, hc, fun _ => ⟨by simp only [advanced, ht], h0c, hb, rfl⟩⟩
      · have hm1 := Nat.le_antisymm hw.2 hm
        have hc := Next_wellFormed_last E dc o h0c hwc (by rw [ht]; exact hm1)
        rw [ht] at hc
        exact ⟨_, _, hc, fun hlt => absurd hlt (Nat.not_lt.mpr hm)⟩
    · intro rs hrs hel h0 o
      exact NextTimes_buffered E rs dc o hrs (by rw [ht]; exact hel) (by rw [he, h0])
  by_cases h : ds.fd = -1
  · exact ⟨ds, os, Close_closed ds os h, rfl, rfl, rfl, rfl, rfl, key ds os rfl rfl rfl⟩
  · exact ⟨_, _, Close_open ds os h, rfl, rfl, rfl, rfl, rfl, key _ _ rfl rfl rfl⟩

end DirStream
